import Mathlib

/-!
Shallow embedding of the 2048 sliding-tile game (src/main.py) and proofs of
the specification claims about its grid transition engine, spawn/terminal
policy and merge-pop animation bookkeeping.

Pixel constants from the source: WIDTH = HEIGHT = 800, ROWS = COLS = 4, so
RECT_WIDTH = RECT_HEIGHT = 200.  Python ints and pixel coordinates are
modelled as `Int` (every value the program produces is integral), the merge
countdown as `Nat`.
-/

namespace G2048

def RECT_WIDTH : Int := 200

def RECT_HEIGHT : Int := 200

def MERGE_ANIM_DURATION : Nat := 8

/-- The `Tile` class of src/main.py: value, logical cell, animated pixel
position, target pixel position, per-move flags and merge-pop countdown. -/
structure Tile where
  value : Int
  row : Int
  col : Int
  x : Int
  y : Int
  target_x : Int
  target_y : Int
  merged : Bool
  to_remove : Bool
  merge_anim_counter : Nat
deriving DecidableEq, Repr

instance : Inhabited Tile :=
  ⟨⟨2, 0, 0, 0, 0, 0, 0, false, false, 0⟩⟩

/-- `Tile.__init__`: a fresh tile at (row, col) with the given value. -/
def Tile.new (value row col : Int) : Tile :=
  { value := value, row := row, col := col
    x := col * RECT_WIDTH, y := row * RECT_HEIGHT
    target_x := col * RECT_WIDTH, target_y := row * RECT_HEIGHT
    merged := false, to_remove := false, merge_anim_counter := 0 }

/-- A logical grid cell (row, col). -/
abbrev Cell := Int × Int

/-- The cell a tile occupies logically. -/
def Tile.cell (t : Tile) : Cell := (t.row, t.col)

/-- `within` of src/main.py: 0 <= r < ROWS and 0 <= c < COLS. -/
def withinB (p : Cell) : Bool :=
  decide (0 ≤ p.1) && decide (p.1 < 4) && decide (0 ≤ p.2) && decide (p.2 < 4)

def inBounds (p : Cell) : Prop :=
  0 ≤ p.1 ∧ p.1 < 4 ∧ 0 ≤ p.2 ∧ p.2 < 4

instance (p : Cell) : Decidable (inBounds p) := by
  unfold inBounds; infer_instance

/-- The four valid directions. -/
inductive Dir where
  | left
  | right
  | up
  | down
deriving DecidableEq, Repr

/-- The string dispatch used by `traverse` and `next_pos` in src/main.py:
any string other than the four direction names falls through to `None`. -/
def parseDir (s : String) : Option Dir :=
  if s = "left" then some Dir.left
  else if s = "right" then some Dir.right
  else if s = "up" then some Dir.up
  else if s = "down" then some Dir.down
  else none

/-- `next_pos` of src/main.py: one step in the move direction. -/
def nextPos (d : Dir) (p : Cell) : Cell :=
  match d with
  | Dir.left => (p.1, p.2 - 1)
  | Dir.right => (p.1, p.2 + 1)
  | Dir.up => (p.1 - 1, p.2)
  | Dir.down => (p.1 + 1, p.2)

def idx4 : List Int := [0, 1, 2, 3]

def idx4rev : List Int := [3, 2, 1, 0]

/-- `traverse` of src/main.py: the order in which cells are visited, cells
farther along the move direction first. -/
def traverse (d : Dir) : List Cell :=
  match d with
  | Dir.left => idx4.flatMap (fun r => idx4.map (fun c => (r, c)))
  | Dir.right => idx4.flatMap (fun r => idx4rev.map (fun c => (r, c)))
  | Dir.up => idx4.flatMap (fun c => idx4.map (fun r => (r, c)))
  | Dir.down => idx4.flatMap (fun c => idx4rev.map (fun r => (r, c)))

/-- Traversal rank of a cell: its position in `traverse d`.  Cells farther
along the move direction have smaller rank. -/
def rank (d : Dir) (p : Cell) : Int :=
  match d with
  | Dir.left => 4 * p.1 + p.2
  | Dir.right => 4 * p.1 + 3 - p.2
  | Dir.up => 4 * p.2 + p.1
  | Dir.down => 4 * p.2 + 3 - p.1

/-- The cell of a given traversal rank. -/
def cellOfRank (d : Dir) (k : Nat) : Cell :=
  match d with
  | Dir.left => ((k : Int) / 4, (k : Int) % 4)
  | Dir.right => ((k : Int) / 4, 3 - (k : Int) % 4)
  | Dir.up => ((k : Int) % 4, (k : Int) / 4)
  | Dir.down => (3 - (k : Int) % 4, (k : Int) / 4)

/-! ### Tile list helpers (Python list indexing / in-place mutation) -/

/-- Read the i-th tile of the live collection. -/
def tget (l : List Tile) (i : Nat) : Tile :=
  l.getD i default

/-- Mutate the i-th tile of the live collection in place. -/
def lmod (l : List Tile) (i : Nat) (f : Tile → Tile) : List Tile :=
  match l, i with
  | [], _ => []
  | t :: ts, 0 => f t :: ts
  | t :: ts, j + 1 => t :: lmod ts j f

/-! ### Grid map: the local `grid` array of `move`, holding tile
references, modelled as a map from cells to indices into the tile list -/

/-- A grid assignment update (`grid[r][c] = v`). -/
def gset (g : Cell → Option Nat) (p : Cell) (v : Option Nat) : Cell → Option Nat :=
  fun q => if q = p then v else g q

/-- `reset_merged_flags` of src/main.py. -/
def reset_merged_flags (tiles : List Tile) : List Tile :=
  tiles.map (fun t => { t with merged := false, to_remove := false })

/-- The grid array built at the start of `move` from tile logical positions
(`grid[t.row][t.col] = t`, later tiles overwriting earlier ones). -/
def buildGrid (tiles : List Tile) : Cell → Option Nat :=
  (List.range tiles.length).foldl (fun g i => gset g (tget tiles i).cell (some i))
    (fun _ => none)

/-- The mutable state of one `move` call: the tile collection, the grid of
tile references and the `moved` flag. -/
structure MoveState where
  tiles : List Tile
  grid : Cell → Option Nat
  moved : Bool

/-- The state change of sliding tile `i` from `cur` into the empty cell `n`
(`grid[nr][nc] = tile; grid[current_r][current_c] = None; moved = True`). -/
def slideState (s : MoveState) (i : Nat) (cur n : Cell) : MoveState :=
  { s with grid := gset (gset s.grid n (some i)) cur none, moved := true }

/-- The in-place mutation of the surviving tile of a merge
(`next_tile.value *= 2; next_tile.merged = True; next_tile.start_merge_animation()`). -/
def mergeSurvivor (t : Tile) : Tile :=
  { t with value := t.value * 2, merged := true
           merge_anim_counter := MERGE_ANIM_DURATION }

/-- The in-place mutation of the absorbed tile of a merge
(`tile.to_remove = True`). -/
def markRemoved (t : Tile) : Tile :=
  { t with to_remove := true }

/-- The state change of merging tile `i` (at `cur`) into tile `j`
(occupying the next cell): mutate both tiles, clear the source grid cell,
set `moved`. -/
def mergeState (s : MoveState) (i j : Nat) (cur : Cell) : MoveState :=
  { s with
      tiles := lmod (lmod s.tiles j mergeSurvivor) i markRemoved
      grid := gset s.grid cur none
      moved := true }

/-- The inner `while True` loop of `move`: starting from the tile with
index `i` at cell `cur`, repeatedly step one cell in the move direction,
sliding into empty cells and stopping at a merge, a blocker or the wall.
The Python loop terminates because every step moves strictly toward a wall
at most three cells away; `fuel` (always called with 20, more than any
possible number of iterations) makes that termination structural. -/
def stepLoop (d : Dir) (i : Nat) : Nat → MoveState → Cell → MoveState × Cell
  | 0, s, cur => (s, cur)
  | fuel + 1, s, cur =>
    if withinB (nextPos d cur) then
      match s.grid (nextPos d cur) with
      | none => stepLoop d i fuel (slideState s i cur (nextPos d cur)) (nextPos d cur)
      | some j =>
        if (tget s.tiles j).value = (tget s.tiles i).value ∧
            (tget s.tiles i).merged = false ∧ (tget s.tiles j).merged = false then
          (mergeState s i j cur, cur)
        else (s, cur)
    else (s, cur)

/-- After the stepping loop: set the processed tile's target pixel position
from its final cell (`tile.target_x = current_c * RECT_WIDTH; tile.target_y
= current_r * RECT_HEIGHT`). -/
def targetState (r : MoveState × Cell) (i : Nat) : MoveState :=
  { r.1 with
      tiles := lmod r.1.tiles i (fun t =>
        { t with target_x := r.2.2 * RECT_WIDTH, target_y := r.2.1 * RECT_HEIGHT }) }

/-- The body of `for r, c in traverse():` in `move`: process one cell. -/
def processCell (d : Dir) (s : MoveState) (p : Cell) : MoveState :=
  match s.grid p with
  | none => s
  | some i => targetState (stepLoop d i 20 s p) i

/-- The state at the start of `move`, after `reset_merged_flags` and the
grid build: collection flag-reset, grid from logical positions, `moved`
false. -/
def moveState0 (tiles : List Tile) : MoveState :=
  { tiles := reset_merged_flags tiles
    grid := buildGrid (reset_merged_flags tiles)
    moved := false }

/-- The state after the full `for r, c in traverse():` loop of `move`. -/
def runMove (tiles : List Tile) (d : Dir) : MoveState :=
  (traverse d).foldl (processCell d) (moveState0 tiles)

/-- `move` of src/main.py before the final purge: returns the processed
tile collection (still index-aligned with the input) and the `moved` flag. -/
def moveAll (tiles : List Tile) (d : Dir) : List Tile × Bool :=
  ((runMove tiles d).tiles, (runMove tiles d).moved)

/-- `move` of src/main.py: processes every cell in traversal order and then
purges the tiles flagged `to_remove` (`tiles[:] = [t for t in tiles if not
t.to_remove]`), returning the new live collection and `moved`. -/
def move (tiles : List Tile) (d : Dir) : List Tile × Bool :=
  let r := moveAll tiles d
  (r.1.filter (fun t => t.to_remove = false), r.2)

/-- `move` as called with a raw direction string.  For a string that is not
one of the four direction names, `traverse()` returns `None` and the
iteration `for r, c in traverse():` raises a `TypeError`; the abnormal
termination is modelled as `none`. -/
def moveStr (tiles : List Tile) (s : String) : Option (List Tile × Bool) :=
  (parseDir s).map (move tiles)

/-! ### Spawn/terminal policy -/

def allCells : List Cell := idx4.flatMap (fun r => idx4.map (fun c => (r, c)))

/-- The list of empty cells computed by `spawn_tile`, in row-major order. -/
def availableCells (tiles : List Tile) : List Cell :=
  allCells.filter (fun p => (tiles.map Tile.cell).contains p = false)

/-- `spawn_tile` of src/main.py.  The two random draws are passed in as
parameters: `pick` selects the empty cell (`random.choice(available)`, a
uniform index into the list of empty cells) and `q` is the uniform draw of
`random.random()` compared against 0.1 to choose value 4 over value 2. -/
def spawn_tile (tiles : List Tile) (pick : Nat) (q : ℚ) : List Tile × Bool :=
  let available := availableCells tiles
  if available.isEmpty then (tiles, false)
  else
    let cell := available.getD (pick % available.length) (0, 0)
    let newValue : Int := if q < 1 / 10 then 4 else 2
    (tiles ++ [Tile.new newValue cell.1 cell.2], true)

/-- The local value grid of `can_move`: a 4x4 array initialised to 0 and
filled with `grid[t.row][t.col] = t.value` for each tile in order. -/
def valGrid (tiles : List Tile) : Cell → Int :=
  tiles.foldl (fun g t => fun q => if q = t.cell then t.value else g q) (fun _ => 0)

/-- `can_move` of src/main.py: true when fewer than ROWS*COLS tiles exist,
otherwise true iff some cell equals its right or bottom neighbour. -/
def can_move (tiles : List Tile) : Bool :=
  if tiles.length < 16 then true
  else
    idx4.any (fun r => idx4.any (fun c =>
      (decide (c + 1 < 4) && decide (valGrid tiles (r, c) = valGrid tiles (r, c + 1))) ||
      (decide (r + 1 < 4) && decide (valGrid tiles (r, c) = valGrid tiles (r + 1, c)))))

/-! ### Merge-pop frame bookkeeping (main loop merge phase + draw) -/

/-- The merge-phase decrement performed by the main loop each frame while
`merge_animation_running` (`if t.merge_anim_counter > 0:
t.merge_anim_counter -= 1`). -/
def mergePhaseTick (tiles : List Tile) : List Tile :=
  tiles.map (fun t =>
    if t.merge_anim_counter > 0 then
      { t with merge_anim_counter := t.merge_anim_counter - 1 }
    else t)

/-- The counter side effect of `Tile.draw`: at the end of drawing, a tile
with a positive merge-pop countdown decrements it once more. -/
def drawTick (tiles : List Tile) : List Tile :=
  tiles.map (fun t =>
    if t.merge_anim_counter > 0 then
      { t with merge_anim_counter := t.merge_anim_counter - 1 }
    else t)

/-- One full frame of the control loop during the merge-pop phase: the
merge-phase decrement followed by the unconditional `draw(WINDOW, tiles)`
at the end of the loop body, whose `Tile.draw` decrements again. -/
def mergePhaseFrame (tiles : List Tile) : List Tile :=
  drawTick (mergePhaseTick tiles)

/-! ### Specification-side predicates -/

/-- Well-formed tile collection: all cells in bounds and pairwise
distinct (the internal invariant `move` and `can_move` are called under). -/
def WF (tiles : List Tile) : Prop :=
  (∀ t ∈ tiles, inBounds t.cell) ∧ (tiles.map Tile.cell).Nodup

instance (tiles : List Tile) : Decidable (WF tiles) := by
  unfold WF; infer_instance

/-- Some in-bounds cell is unoccupied. -/
def hasEmptyCell (tiles : List Tile) : Prop :=
  ∃ p, inBounds p ∧ ∀ t ∈ tiles, t.cell ≠ p

/-- Two orthogonally adjacent tiles hold equal values (right neighbour or
bottom neighbour). -/
def adjEqualPair (tiles : List Tile) : Prop :=
  ∃ t ∈ tiles, ∃ u ∈ tiles,
    (u.cell = (t.row, t.col + 1) ∨ u.cell = (t.row + 1, t.col)) ∧ u.value = t.value

/-- The pre-move grid as a map from cells to tile values, read off the
logical (row, col) positions. -/
def gridValIn (tiles : List Tile) : Cell → Option Int :=
  fun p => (tiles.find? (fun t => t.cell == p)).map Tile.value

/-- The post-move grid as a map from cells to tile values, read off the
target pixel positions the move assigned. -/
def gridValOut (tiles : List Tile) : Cell → Option Int :=
  fun p => (tiles.find? (fun t =>
    (t.target_x, t.target_y) == (p.2 * RECT_WIDTH, p.1 * RECT_HEIGHT))).map Tile.value

/-- The value a tile contributes to the live total: nothing once flagged
for removal. -/
def wval (t : Tile) : Int :=
  if t.to_remove = true then 0 else t.value

/-- Total value of the tiles not flagged for removal. -/
def liveSum (l : List Tile) : Int :=
  (l.map wval).sum

/-- A tile whose target is its own logical cell. -/
def setTarget (t : Tile) : Tile :=
  { t with target_x := t.col * RECT_WIDTH, target_y := t.row * RECT_HEIGHT }

/-! ### Invariant structures for the transition engine proofs -/

/-- Record-shape facts about the processed tile collection relative to the
flag-reset input `base`: the length and each tile's identity fields are
untouched, an unmerged tile keeps its value and countdown, a merged tile
has exactly doubled and started its merge pop. -/
structure TilesShape (base ts : List Tile) : Prop where
  len : ts.length = base.length
  frame : ∀ i, i < base.length →
    (tget ts i).row = (tget base i).row ∧
    (tget ts i).col = (tget base i).col ∧
    (tget ts i).x = (tget base i).x ∧
    (tget ts i).y = (tget base i).y
  notMerged : ∀ i, i < base.length → (tget ts i).merged = false →
    (tget ts i).value = (tget base i).value ∧
    (tget ts i).merge_anim_counter = (tget base i).merge_anim_counter
  isMerged : ∀ i, i < base.length → (tget ts i).merged = true →
    (tget ts i).value = 2 * (tget base i).value ∧
    (tget ts i).merge_anim_counter = MERGE_ANIM_DURATION

/-- Facts about the flag-reset collection a move starts from: per-move
flags are clear and the cells are in-bounds and pairwise distinct. -/
structure BaseWF (base : List Tile) : Prop where
  flags : ∀ m, m < base.length →
    (tget base m).merged = false ∧ (tget base m).to_remove = false
  inb : ∀ m, m < base.length → inBounds (tget base m).cell
  nodup : (base.map Tile.cell).Nodup

/-- Grid-to-collection consistency during a move: every grid entry is a
valid index at an in-bounds cell, no index appears at two cells, grid
entries are never removal-flagged, and every live tile is on the grid. -/
structure GridOK (n : Nat) (s : MoveState) : Prop where
  wf : ∀ p i, s.grid p = some i → i < n ∧ inBounds p
  inj : ∀ p q i, s.grid p = some i → s.grid q = some i → p = q
  live : ∀ p i, s.grid p = some i → (tget s.tiles i).to_remove = false
  onGrid : ∀ i, i < n → (tget s.tiles i).to_remove = false → ∃ p, s.grid p = some i

/-- The invariant of the cell-processing fold of `move`, holding after the
first `k` cells in traversal order have been processed.  Settled tiles
(on cells of rank below `k`) already carry their final target and have only
moved toward the wall; untouched tiles (rank at least `k`) still sit on
their original cell with their original record.  `movedF`/`movedT` track
exactly what the `moved` flag reports, and `removed` records, for each
absorbed tile, the cell it stopped on and the surviving tile one step
farther along. -/
structure Inv (d : Dir) (base : List Tile) (k : Nat) (s : MoveState) : Prop where
  shape : TilesShape base s.tiles
  sum : liveSum s.tiles = liveSum base
  gok : GridOK base.length s
  settled : ∀ p i, s.grid p = some i → rank d p < (k : Int) →
    (tget s.tiles i).target_x = p.2 * RECT_WIDTH ∧
    (tget s.tiles i).target_y = p.1 * RECT_HEIGHT ∧
    rank d p ≤ rank d (tget base i).cell
  fresh : ∀ p i, s.grid p = some i → (k : Int) ≤ rank d p →
    tget s.tiles i = tget base i ∧ p = (tget base i).cell
  movedF : s.moved = false → s.grid = buildGrid base ∧
    ∀ m, m < base.length →
      (rank d (tget base m).cell < (k : Int) →
        tget s.tiles m = setTarget (tget base m)) ∧
      ((k : Int) ≤ rank d (tget base m).cell → tget s.tiles m = tget base m)
  movedT : s.moved = true →
    (∃ m, m < base.length ∧ (tget s.tiles m).to_remove = true) ∨
    (∃ p j, s.grid p = some j ∧ j < base.length ∧ p ≠ (tget base j).cell ∧
      rank d p < (k : Int))
  removed : ∀ m, m < base.length → (tget s.tiles m).to_remove = true →
    ∃ q j, inBounds q ∧ j < base.length ∧
      (tget s.tiles m).target_x = q.2 * RECT_WIDTH ∧
      (tget s.tiles m).target_y = q.1 * RECT_HEIGHT ∧
      (tget s.tiles m).merged = false ∧
      s.grid (nextPos d q) = some j ∧
      (tget s.tiles j).merged = true ∧
      (tget base j).value = (tget base m).value

/-- The invariant of the inner stepping loop while tile `i` (being
processed from the rank-`k` traversal cell) currently stands on `cur`. -/
structure LInv (d : Dir) (base : List Tile) (k i : Nat) (s : MoveState)
    (cur : Cell) : Prop where
  shape : TilesShape base s.tiles
  sum : liveSum s.tiles = liveSum base
  gok : GridOK base.length s
  inB : inBounds cur
  icur : s.grid cur = some i
  ifresh : tget s.tiles i = tget base i
  irank : rank d cur ≤ rank d (tget base i).cell
  irankk : rank d (tget base i).cell = (k : Int)
  settledO : ∀ p j, j ≠ i → s.grid p = some j → rank d p < (k : Int) →
    (tget s.tiles j).target_x = p.2 * RECT_WIDTH ∧
    (tget s.tiles j).target_y = p.1 * RECT_HEIGHT ∧
    rank d p ≤ rank d (tget base j).cell
  freshO : ∀ p j, j ≠ i → s.grid p = some j → (k : Int) ≤ rank d p →
    tget s.tiles j = tget base j ∧ p = (tget base j).cell
  movedF : s.moved = false → s.grid = buildGrid base ∧ cur = (tget base i).cell ∧
    ∀ m, m < base.length →
      (rank d (tget base m).cell < (k : Int) →
        tget s.tiles m = setTarget (tget base m)) ∧
      ((k : Int) ≤ rank d (tget base m).cell → tget s.tiles m = tget base m)
  movedT : s.moved = true →
    (∃ m, m < base.length ∧ (tget s.tiles m).to_remove = true) ∨
    (∃ p j, s.grid p = some j ∧ j < base.length ∧ p ≠ (tget base j).cell ∧
      rank d p < (k : Int)) ∨
    cur ≠ (tget base i).cell
  removed : ∀ m, m < base.length → (tget s.tiles m).to_remove = true →
    ∃ q j, inBounds q ∧ j < base.length ∧
      (tget s.tiles m).target_x = q.2 * RECT_WIDTH ∧
      (tget s.tiles m).target_y = q.1 * RECT_HEIGHT ∧
      (tget s.tiles m).merged = false ∧
      s.grid (nextPos d q) = some j ∧
      (tget s.tiles j).merged = true ∧
      (tget base j).value = (tget base m).value

/-- The postcondition of the inner stepping loop: the processed tile has
either come to rest on the returned cell with its record untouched, or been
absorbed into the tile one step farther along and flagged for removal. -/
structure Post (d : Dir) (base : List Tile) (k i : Nat)
    (r : MoveState × Cell) : Prop where
  shape : TilesShape base r.1.tiles
  sum : liveSum r.1.tiles = liveSum base
  gok : GridOK base.length r.1
  inB : inBounds r.2
  rankle : rank d r.2 ≤ (k : Int)
  rankle0 : rank d r.2 ≤ rank d (tget base i).cell
  settledO : ∀ p j, j ≠ i → r.1.grid p = some j → rank d p < (k : Int) →
    (tget r.1.tiles j).target_x = p.2 * RECT_WIDTH ∧
    (tget r.1.tiles j).target_y = p.1 * RECT_HEIGHT ∧
    rank d p ≤ rank d (tget base j).cell
  freshO : ∀ p j, j ≠ i → r.1.grid p = some j → (k : Int) ≤ rank d p →
    tget r.1.tiles j = tget base j ∧ p = (tget base j).cell
  movedF : r.1.moved = false →
    r.1.grid = buildGrid base ∧ r.2 = (tget base i).cell ∧
    ∀ m, m < base.length →
      (rank d (tget base m).cell < (k : Int) →
        tget r.1.tiles m = setTarget (tget base m)) ∧
      ((k : Int) ≤ rank d (tget base m).cell → tget r.1.tiles m = tget base m)
  movedT : r.1.moved = true →
    (∃ m, m < base.length ∧ (tget r.1.tiles m).to_remove = true) ∨
    (∃ p j, r.1.grid p = some j ∧ j < base.length ∧ p ≠ (tget base j).cell ∧
      rank d p < (k : Int)) ∨
    r.2 ≠ (tget base i).cell
  removedO : ∀ m, m < base.length → m ≠ i → (tget r.1.tiles m).to_remove = true →
    ∃ q j, inBounds q ∧ j < base.length ∧
      (tget r.1.tiles m).target_x = q.2 * RECT_WIDTH ∧
      (tget r.1.tiles m).target_y = q.1 * RECT_HEIGHT ∧
      (tget r.1.tiles m).merged = false ∧
      r.1.grid (nextPos d q) = some j ∧
      (tget r.1.tiles j).merged = true ∧
      (tget base j).value = (tget base m).value
  outcome : (r.1.grid r.2 = some i ∧ tget r.1.tiles i = tget base i) ∨
    ((∀ p, r.1.grid p ≠ some i) ∧
      tget r.1.tiles i = markRemoved (tget base i) ∧
      ∃ j, j < base.length ∧ j ≠ i ∧ r.1.grid (nextPos d r.2) = some j ∧
        (tget r.1.tiles j).merged = true ∧
        (tget base j).value = (tget base i).value)

/-! ## Basic lemmas -/

theorem withinB_eq_true {p : Cell} : withinB p = true ↔ inBounds p := by
  simp [withinB, inBounds, and_assoc]

theorem traverse_eq_map (d : Dir) :
    traverse d = (List.range 16).map (cellOfRank d) := by
  cases d <;> decide

theorem rank_nextPos (d : Dir) (p : Cell) :
    rank d (nextPos d p) = rank d p - 1 := by
  cases d <;> simp [rank, nextPos] <;> ring

theorem nextPos_ne (d : Dir) (p : Cell) : nextPos d p ≠ p := by
  cases d <;> simp [nextPos, Prod.ext_iff]

theorem rank_nonneg_of_inBounds {d : Dir} {p : Cell} (h : inBounds p) :
    0 ≤ rank d p ∧ rank d p < 16 := by
  obtain ⟨h1, h2, h3, h4⟩ := h
  cases d <;> simp only [rank] <;> omega

theorem rank_injOn {d : Dir} {p q : Cell} (hp : inBounds p) (hq : inBounds q)
    (h : rank d p = rank d q) : p = q := by
  obtain ⟨a1, a2, a3, a4⟩ := hp
  obtain ⟨b1, b2, b3, b4⟩ := hq
  obtain ⟨pr, pc⟩ := p
  obtain ⟨qr, qc⟩ := q
  cases d <;> simp only [rank] at h <;> simp only [Prod.mk.injEq] <;> omega

theorem inBounds_cellOfRank {d : Dir} {k : Nat} (h : k < 16) :
    inBounds (cellOfRank d k) := by
  interval_cases k <;> cases d <;> decide

theorem rank_cellOfRank {d : Dir} {k : Nat} (h : k < 16) :
    rank d (cellOfRank d k) = k := by
  interval_cases k <;> cases d <;> decide

theorem mem_allCells {p : Cell} : p ∈ allCells ↔ inBounds p := by
  obtain ⟨r, c⟩ := p
  simp only [allCells, idx4, List.mem_flatMap, List.mem_map, List.mem_cons,
    List.mem_singleton, List.not_mem_nil, or_false, Prod.mk.injEq, inBounds]
  constructor
  · rintro ⟨a, ha, b, hb, h1, h2⟩
    subst h1; subst h2
    rcases ha with h | h | h | h <;> rcases hb with h' | h' | h' | h' <;>
      subst h <;> subst h' <;> norm_num
  · rintro ⟨h1, h2, h3, h4⟩
    refine ⟨r, by omega, c, by omega, rfl, rfl⟩

theorem pixel_inj {p q : Cell} (h1 : p.2 * RECT_WIDTH = q.2 * RECT_WIDTH)
    (h2 : p.1 * RECT_HEIGHT = q.1 * RECT_HEIGHT) : p = q := by
  simp only [RECT_WIDTH, RECT_HEIGHT] at h1 h2
  obtain ⟨a, b⟩ := p
  obtain ⟨c, d⟩ := q
  simp only [Prod.mk.injEq]
  omega

/-! ## List and grid helper lemmas -/

theorem lmod_length (l : List Tile) (i : Nat) (f : Tile → Tile) :
    (lmod l i f).length = l.length := by
  induction l generalizing i with
  | nil => rfl
  | cons t ts ih =>
    cases i with
    | zero => rfl
    | succ j => simp [lmod, ih]

theorem tget_lmod_self {l : List Tile} {i : Nat} (f : Tile → Tile)
    (h : i < l.length) : tget (lmod l i f) i = f (tget l i) := by
  induction l generalizing i with
  | nil => simp at h
  | cons t ts ih =>
    cases i with
    | zero => rfl
    | succ j =>
      simp only [List.length_cons, Nat.add_lt_add_iff_right] at h
      simpa [lmod, tget] using ih h

theorem tget_lmod_ne {l : List Tile} {i j : Nat} (f : Tile → Tile)
    (h : j ≠ i) : tget (lmod l i f) j = tget l j := by
  induction l generalizing i j with
  | nil => rfl
  | cons t ts ih =>
    cases i with
    | zero =>
      cases j with
      | zero => exact absurd rfl h
      | succ m => rfl
    | succ i' =>
      cases j with
      | zero => rfl
      | succ m =>
        simp only [lmod, tget, List.getD_cons_succ]
        exact ih (by omega)

theorem gset_self (g : Cell → Option Nat) (p : Cell) (v : Option Nat) :
    gset g p v p = v := by
  simp [gset]

theorem gset_ne (g : Cell → Option Nat) {p q : Cell} (v : Option Nat)
    (h : q ≠ p) : gset g p v q = g q := by
  simp [gset, h]

theorem tget_map {f : Tile → Tile} {l : List Tile} {i : Nat} (h : i < l.length) :
    tget (l.map f) i = f (tget l i) := by
  induction l generalizing i with
  | nil => simp at h
  | cons t ts ih =>
    cases i with
    | zero => rfl
    | succ j =>
      simp only [List.length_cons, Nat.add_lt_add_iff_right] at h
      simpa [tget] using ih h

theorem reset_length (tiles : List Tile) :
    (reset_merged_flags tiles).length = tiles.length := by
  simp [reset_merged_flags]

theorem tget_reset {tiles : List Tile} {i : Nat} (h : i < tiles.length) :
    tget (reset_merged_flags tiles) i =
      { tget tiles i with merged := false, to_remove := false } := by
  simpa [reset_merged_flags] using tget_map (f := fun t =>
    { t with merged := false, to_remove := false }) h

theorem list_ext_tget {l₁ l₂ : List Tile} (hlen : l₁.length = l₂.length)
    (h : ∀ i, i < l₁.length → tget l₁ i = tget l₂ i) : l₁ = l₂ := by
  induction l₁ generalizing l₂ with
  | nil => cases l₂ with
    | nil => rfl
    | cons u us => simp at hlen
  | cons t ts ih =>
    cases l₂ with
    | nil => simp at hlen
    | cons u us =>
      simp only [List.length_cons, Nat.add_right_cancel_iff] at hlen
      have h0 := h 0 (by simp)
      simp only [tget, List.getD_cons_zero] at h0
      subst h0
      congr 1
      refine ih hlen (fun i hi => ?_)
      simpa [tget] using h (i + 1) (by simpa using Nat.succ_lt_succ hi)

theorem lmod_ge {l : List Tile} {i : Nat} (f : Tile → Tile) (h : l.length ≤ i) :
    lmod l i f = l := by
  induction l generalizing i with
  | nil => rfl
  | cons t ts ih =>
    cases i with
    | zero => simp at h
    | succ j =>
      simp only [List.length_cons, Nat.add_le_add_iff_right] at h
      simp [lmod, ih h]

theorem tget_lmod_cases (l : List Tile) (i m : Nat) (f : Tile → Tile) :
    tget (lmod l i f) m = tget l m ∨
      (m = i ∧ m < l.length ∧ tget (lmod l i f) m = f (tget l m)) := by
  by_cases hmi : m = i
  · subst hmi
    by_cases hlt : m < l.length
    · exact Or.inr ⟨rfl, hlt, tget_lmod_self f hlt⟩
    · exact Or.inl (by rw [lmod_ge f (by omega)])
  · exact Or.inl (tget_lmod_ne f hmi)

/-! ## Record-shape preservation through the transition engine -/

theorem shape_init {base : List Tile}
    (hm : ∀ i, i < base.length → (tget base i).merged = false) :
    TilesShape base base := by
  refine ⟨rfl, fun i _ => ⟨rfl, rfl, rfl, rfl⟩, fun i _ _ => ⟨rfl, rfl⟩,
    fun i hi h => ?_⟩
  rw [hm i hi] at h
  cases h

theorem shape_merge {base : List Tile} {s : MoveState} {i j : Nat} {cur : Cell}
    (h : TilesShape base s.tiles) (hj : (tget s.tiles j).merged = false) :
    TilesShape base (mergeState s i j cur).tiles := by
  have hlen : (mergeState s i j cur).tiles.length = base.length := by
    simp [mergeState, lmod_length, h.len]
  have key : ∀ m, m < base.length →
      tget (mergeState s i j cur).tiles m = tget s.tiles m ∨
      tget (mergeState s i j cur).tiles m = markRemoved (tget s.tiles m) ∨
      (m = j ∧ tget (mergeState s i j cur).tiles m = mergeSurvivor (tget s.tiles m)) ∨
      (m = j ∧ tget (mergeState s i j cur).tiles m =
        markRemoved (mergeSurvivor (tget s.tiles m))) := by
    intro m _
    rcases tget_lmod_cases (lmod s.tiles j mergeSurvivor) i m markRemoved with
      hout | ⟨hmi, _, hout⟩ <;>
      rcases tget_lmod_cases s.tiles j m mergeSurvivor with hin | ⟨hmj, _, hin⟩
    · exact Or.inl (by rw [show (mergeState s i j cur).tiles =
        lmod (lmod s.tiles j mergeSurvivor) i markRemoved from rfl, hout, hin])
    · exact Or.inr (Or.inr (Or.inl ⟨hmj, by rw [show (mergeState s i j cur).tiles =
        lmod (lmod s.tiles j mergeSurvivor) i markRemoved from rfl, hout, hin]⟩))
    · exact Or.inr (Or.inl (by rw [show (mergeState s i j cur).tiles =
        lmod (lmod s.tiles j mergeSurvivor) i markRemoved from rfl, hout, hin]))
    · exact Or.inr (Or.inr (Or.inr ⟨hmj, by rw [show (mergeState s i j cur).tiles =
        lmod (lmod s.tiles j mergeSurvivor) i markRemoved from rfl, hout, hin]⟩))
  refine ⟨hlen, fun m hm => ?_, fun m hm hnm => ?_, fun m hm hsm => ?_⟩
  · rcases key m hm with hk | hk | ⟨_, hk⟩ | ⟨_, hk⟩ <;>
      rw [hk] <;> exact h.frame m hm
  · rcases key m hm with hk | hk | ⟨hmj, hk⟩ | ⟨hmj, hk⟩
    · rw [hk] at hnm ⊢; exact h.notMerged m hm hnm
    · rw [hk] at hnm ⊢
      simp only [markRemoved] at hnm ⊢
      exact h.notMerged m hm hnm
    · rw [hk] at hnm; simp [mergeSurvivor] at hnm
    · rw [hk] at hnm; simp [markRemoved, mergeSurvivor] at hnm
  · rcases key m hm with hk | hk | ⟨hmj, hk⟩ | ⟨hmj, hk⟩
    · rw [hk] at hsm ⊢; exact h.isMerged m hm hsm
    · rw [hk] at hsm ⊢
      simp only [markRemoved] at hsm ⊢
      exact h.isMerged m hm hsm
    · subst hmj
      rw [hk]
      have hv := (h.notMerged m hm hj).1
      simp [mergeSurvivor, hv, mul_comm]
    · subst hmj
      rw [hk]
      have hv := (h.notMerged m hm hj).1
      simp [markRemoved, mergeSurvivor, hv, mul_comm]

theorem shape_stepLoop {base : List Tile} {d : Dir} {i : Nat} :
    ∀ (fuel : Nat) (s : MoveState) (cur : Cell), TilesShape base s.tiles →
      TilesShape base (stepLoop d i fuel s cur).1.tiles := by
  intro fuel
  induction fuel with
  | zero => intro s cur h; exact h
  | succ fuel ih =>
    intro s cur h
    simp only [stepLoop]
    split
    · split
      · exact ih _ _ h
      · split
        · next hcond => exact shape_merge h hcond.2.2
        · exact h
    · exact h

theorem shape_target {base : List Tile} {r : MoveState × Cell} {i : Nat}
    (h : TilesShape base r.1.tiles) : TilesShape base (targetState r i).tiles := by
  have key : ∀ m, m < base.length →
      (tget (targetState r i).tiles m).row = (tget r.1.tiles m).row ∧
      (tget (targetState r i).tiles m).col = (tget r.1.tiles m).col ∧
      (tget (targetState r i).tiles m).x = (tget r.1.tiles m).x ∧
      (tget (targetState r i).tiles m).y = (tget r.1.tiles m).y ∧
      (tget (targetState r i).tiles m).merged = (tget r.1.tiles m).merged ∧
      (tget (targetState r i).tiles m).value = (tget r.1.tiles m).value ∧
      (tget (targetState r i).tiles m).merge_anim_counter =
        (tget r.1.tiles m).merge_anim_counter := by
    intro m _
    rcases tget_lmod_cases r.1.tiles i m (fun t =>
        { t with target_x := r.2.2 * RECT_WIDTH, target_y := r.2.1 * RECT_HEIGHT })
      with hk | ⟨_, _, hk⟩ <;>
      rw [show (targetState r i).tiles = lmod r.1.tiles i _ from rfl, hk] <;>
      exact ⟨rfl, rfl, rfl, rfl, rfl, rfl, rfl⟩
  refine ⟨by simp [targetState, lmod_length, h.len], fun m hm => ?_,
    fun m hm hnm => ?_, fun m hm hsm => ?_⟩
  · obtain ⟨h1, h2, h3, h4, _, _, _⟩ := key m hm
    rw [h1, h2, h3, h4]
    exact h.frame m hm
  · obtain ⟨_, _, _, _, h5, h6, h7⟩ := key m hm
    rw [h5] at hnm
    rw [h6, h7]
    exact h.notMerged m hm hnm
  · obtain ⟨_, _, _, _, h5, h6, h7⟩ := key m hm
    rw [h5] at hsm
    rw [h6, h7]
    exact h.isMerged m hm hsm

theorem shape_processCell {base : List Tile} {d : Dir} {s : MoveState} {p : Cell}
    (h : TilesShape base s.tiles) : TilesShape base (processCell d s p).tiles := by
  unfold processCell
  split
  · exact h
  · exact shape_target (shape_stepLoop 20 s p h)

theorem shape_fold {base : List Tile} {d : Dir} :
    ∀ (cs : List Cell) (s : MoveState), TilesShape base s.tiles →
      TilesShape base (cs.foldl (processCell d) s).tiles := by
  intro cs
  induction cs with
  | nil => intro s h; exact h
  | cons c cs ih =>
    intro s h
    exact ih _ (shape_processCell h)

theorem shape_moveAll (tiles : List Tile) (d : Dir) :
    TilesShape (reset_merged_flags tiles) (moveAll tiles d).1 := by
  exact shape_fold (traverse d) _ (shape_init (fun i hi => by
    rw [tget_reset (by simpa [reset_length] using hi)]))

theorem tget_eq_getElem {l : List Tile} {i : Nat} (h : i < l.length) :
    tget l i = l[i] := by
  simp [tget, List.getD_eq_getElem?_getD, List.getElem?_eq_getElem h]

/-- A two-tile row `[2, 2, _, _]` used as a concrete example input. -/
def exPair : List Tile := [Tile.new 2 0 0, Tile.new 2 0 1]

/-! ## C1: invalid directions -/

/-- C1 (counterexample): with the invalid direction string `"diag"`, `move`
does not return `movedOccurred = false` with the collection unchanged — it
raises a `TypeError` (in the embedding, `moveStr` returns `none`), because
`traverse()` returns `None` for any direction other than the four names. -/
theorem c1_counterexample :
    ¬ (moveStr [Tile.new 2 0 0] ("diag") = some ([Tile.new 2 0 0], false)) := by
  decide

/-- C1 amended: for every tile collection and every direction value that is
not one of left, right, up or down, `move` is not a no-op returning false:
`traverse()` yields `None` and the iteration `for r, c in traverse():`
raises `TypeError`, so the call never returns normally (modelled as
`moveStr` returning `none`). -/
theorem c1_invalid_direction_raises (tiles : List Tile) (s : String)
    (h : s ∉ (["left", "right", "up", "down"] : List String)) :
    moveStr tiles s = none := by
  simp only [List.mem_cons, List.not_mem_nil, or_false, not_or] at h
  obtain ⟨h1, h2, h3, h4⟩ := h
  simp [moveStr, parseDir, h1, h2, h3, h4]

/-- C1 witness: the amended theorem applied to a concrete invalid string. -/
theorem c1_witness :
    "diag" ∉ (["left", "right", "up", "down"] : List String) ∧
      moveStr [Tile.new 2 0 0] ("diag") = none :=
  ⟨by decide, c1_invalid_direction_raises [Tile.new 2 0 0] ("diag") (by decide)⟩

/-! ## C8: merge-pop countdown per frame -/

/-- C8: in a merge-phase frame, the countdown is decremented twice — once
by the main loop's merge progression and once more by `Tile.draw` at the
frame's unconditional `draw(WINDOW, tiles)` — so a counter of
`MERGE_ANIM_DURATION = 8` drops to 6 in a single frame, not to 7 as the
claim (decremented exactly once per frame) requires. -/
theorem c8_counter_drops_by_two_per_frame :
    mergePhaseFrame [{ Tile.new 4 0 0 with merge_anim_counter := 8 }] =
      [{ Tile.new 4 0 0 with merge_anim_counter := 6 }] := by
  decide

/-! ## C9: mutation scope of `move` -/

/-- C9 (counterexample): both input tiles have `merge_anim_counter = 0`,
but the surviving merged tile comes out of `move` with its countdown
started (`merge_anim_counter = 8`), so `move` mutates a field outside
{value, target_x, target_y, merged, to_remove}. -/
theorem c9_counterexample :
    ∃ t ∈ (move exPair Dir.left).1,
      t.merge_anim_counter ≠ (Tile.new 2 0 0).merge_anim_counter := by
  decide

/-- C9 amended: `move` mutates only the fields value, target_x/target_y,
merged, to_remove and — on merge survivors — merge_anim_counter, and
removes the to_remove-flagged tiles from the live collection; every tile
surviving the call keeps its logical row, col and its animated pixel
position x, y, and a tile not merged into keeps its countdown too. -/
theorem c9_move_mutation_scope (tiles : List Tile) (d : Dir) :
    (∀ i, i < tiles.length →
      (tget (moveAll tiles d).1 i).row = (tget tiles i).row ∧
      (tget (moveAll tiles d).1 i).col = (tget tiles i).col ∧
      (tget (moveAll tiles d).1 i).x = (tget tiles i).x ∧
      (tget (moveAll tiles d).1 i).y = (tget tiles i).y ∧
      ((tget (moveAll tiles d).1 i).merged = false →
        (tget (moveAll tiles d).1 i).merge_anim_counter =
          (tget tiles i).merge_anim_counter)) ∧
    (move tiles d).1 = (moveAll tiles d).1.filter (fun t => t.to_remove = false) := by
  refine ⟨fun i hi => ?_, rfl⟩
  have hb : i < (reset_merged_flags tiles).length := by
    rw [reset_length]; exact hi
  have hs := shape_moveAll tiles d
  have hfr := hs.frame i hb
  have hrs := tget_reset hi
  refine ⟨?_, ?_, ?_, ?_, fun hm => ?_⟩
  · rw [hfr.1, hrs]
  · rw [hfr.2.1, hrs]
  · rw [hfr.2.2.1, hrs]
  · rw [hfr.2.2.2, hrs]
  · rw [(hs.notMerged i hb hm).2, hrs]

/-- C9 witness: the amended theorem applied to a merge input. -/
theorem c9_witness :
    1 < exPair.length ∧
      (tget (moveAll exPair Dir.left).1 1).col = (tget exPair 1).col :=
  ⟨by decide, ((c9_move_mutation_scope exPair Dir.left).1 1 (by decide)).2.1⟩

/-! ## C3: no tile merges twice in one move -/

/-- C3: every tile surviving a `move` call has a value equal to its
pre-move value or exactly double it (never quadrupled — a tile whose value
was doubled absorbs no further tile in the same call), the doubled case
being flagged `merged`. -/
theorem c3_no_double_merge (tiles : List Tile) (d : Dir) (_h : WF tiles) :
    ∀ t ∈ (move tiles d).1, ∃ i, i < tiles.length ∧
      t = tget (moveAll tiles d).1 i ∧
      (t.value = (tget tiles i).value ∨
        (t.value = 2 * (tget tiles i).value ∧ t.merged = true)) := by
  intro t ht
  have hmem : t ∈ (moveAll tiles d).1 := List.mem_of_mem_filter ht
  obtain ⟨i, hlt, heq⟩ := List.mem_iff_getElem.mp hmem
  have hlen : (moveAll tiles d).1.length = tiles.length := by
    have := (shape_moveAll tiles d).len
    rw [reset_length] at this
    exact this
  have hi : i < tiles.length := by omega
  have hb : i < (reset_merged_flags tiles).length := by
    rw [reset_length]; exact hi
  have htg : tget (moveAll tiles d).1 i = t := by
    rw [tget_eq_getElem hlt, heq]
  refine ⟨i, hi, htg.symm, ?_⟩
  have hs := shape_moveAll tiles d
  have hrs := tget_reset hi
  by_cases hm : (tget (moveAll tiles d).1 i).merged = true
  · right
    have := (hs.isMerged i hb hm).1
    rw [htg] at this hm
    rw [this, hrs]
    exact ⟨rfl, hm⟩
  · left
    have hm' : (tget (moveAll tiles d).1 i).merged = false := by
      cases hfl : (tget (moveAll tiles d).1 i).merged
      · rfl
      · exact absurd hfl hm
    have := (hs.notMerged i hb hm').1
    rw [htg] at this
    rw [this, hrs]

/-- C3 witness: the theorem applied to a concrete merging row. -/
theorem c3_witness :
    WF exPair ∧
      (tget (move exPair Dir.left).1 0) ∈ (move exPair Dir.left).1 ∧
      (∃ i, i < exPair.length ∧
        tget (move exPair Dir.left).1 0 = tget (moveAll exPair Dir.left).1 i ∧
        ((tget (move exPair Dir.left).1 0).value = (tget exPair i).value ∨
          ((tget (move exPair Dir.left).1 0).value = 2 * (tget exPair i).value ∧
            (tget (move exPair Dir.left).1 0).merged = true))) :=
  ⟨by decide, by decide,
    c3_no_double_merge exPair Dir.left (by decide) _ (by decide)⟩

/-! ## C7: spawn policy -/

theorem mem_availableCells {tiles : List Tile} {p : Cell} :
    p ∈ availableCells tiles ↔ inBounds p ∧ ∀ t ∈ tiles, t.cell ≠ p := by
  simp only [availableCells, List.mem_filter, mem_allCells, decide_eq_true_eq]
  constructor
  · rintro ⟨h1, h2⟩
    refine ⟨h1, fun t ht hc => ?_⟩
    have hm : (tiles.map Tile.cell).contains p = true :=
      List.elem_iff.mpr (List.mem_map.mpr ⟨t, ht, hc⟩)
    rw [h2] at hm
    cases hm
  · rintro ⟨h1, h2⟩
    refine ⟨h1, ?_⟩
    cases hcon : (tiles.map Tile.cell).contains p
    · rfl
    · obtain ⟨t, ht, hc⟩ := List.mem_map.mp (List.elem_iff.mp hcon)
      exact absurd hc (h2 t ht)

theorem availableCells_nil_iff {tiles : List Tile} :
    availableCells tiles = [] ↔ ¬ hasEmptyCell tiles := by
  rw [List.eq_nil_iff_forall_not_mem]
  constructor
  · rintro h ⟨p, hp, hf⟩
    exact h p (mem_availableCells.mpr ⟨hp, hf⟩)
  · intro h p hp
    rw [mem_availableCells] at hp
    exact h ⟨p, hp.1, hp.2⟩

/-- C7: `spawn_tile` returns false and leaves the collection unchanged iff
no empty cell exists; otherwise it appends exactly one new tile on the
empty cell selected by the uniform pick (every empty cell is reached as
`pick` ranges over the indices of the empty-cell list), with value 4 when
the uniform draw is below 0.1 and value 2 otherwise, leaves every existing
tile unmodified, and returns true. -/
theorem c7_spawn_tile_spec (tiles : List Tile) (pick : Nat) (q : ℚ)
    (_h : WF tiles) :
    (¬ hasEmptyCell tiles → spawn_tile tiles pick q = (tiles, false)) ∧
    (hasEmptyCell tiles →
      ∃ p, inBounds p ∧ (∀ t ∈ tiles, t.cell ≠ p) ∧
        p = (availableCells tiles).getD (pick % (availableCells tiles).length) (0, 0) ∧
        spawn_tile tiles pick q =
          (tiles ++ [Tile.new (if q < 1 / 10 then 4 else 2) p.1 p.2], true)) ∧
    ((spawn_tile tiles pick q).2 = false ↔ ¬ hasEmptyCell tiles) := by
  by_cases hemp : availableCells tiles = []
  · have hno : ¬ hasEmptyCell tiles := availableCells_nil_iff.mp hemp
    have hs : spawn_tile tiles pick q = (tiles, false) := by
      simp [spawn_tile, hemp]
    refine ⟨fun _ => hs, fun hyes => absurd hyes hno, ?_⟩
    rw [hs]
    simpa using hno
  · have hyes : hasEmptyCell tiles := by
      by_contra hno
      exact hemp (availableCells_nil_iff.mpr hno)
    have hlen : 0 < (availableCells tiles).length :=
      List.length_pos.mpr hemp
    have hidx : pick % (availableCells tiles).length < (availableCells tiles).length :=
      Nat.mod_lt _ hlen
    set p := (availableCells tiles).getD (pick % (availableCells tiles).length) (0, 0)
      with hp
    have hmem : p ∈ availableCells tiles := by
      rw [hp, List.getD_eq_getElem?_getD, List.getElem?_eq_getElem hidx]
      exact List.getElem_mem hidx
    have hspec := mem_availableCells.mp hmem
    have hs : spawn_tile tiles pick q =
        (tiles ++ [Tile.new (if q < 1 / 10 then 4 else 2) p.1 p.2], true) := by
      simp only [spawn_tile]
      rw [if_neg (by simp [List.isEmpty_iff, hemp])]
    refine ⟨fun hno => absurd hyes hno, fun _ => ⟨p, hspec.1, hspec.2, rfl, hs⟩, ?_⟩
    rw [hs]
    simpa using hyes

/-- C7 witness: the theorem applied to a concrete non-full collection. -/
theorem c7_witness :
    WF exPair ∧ ((spawn_tile exPair 0 (1 / 2)).2 = false ↔ ¬ hasEmptyCell exPair) :=
  ⟨by decide, (c7_spawn_tile_spec exPair 0 (1 / 2) (by decide)).2.2⟩

/-! ## C6: the game-over predicate `can_move` -/

theorem mem_idx4 {r : Int} : r ∈ idx4 ↔ 0 ≤ r ∧ r < 4 := by
  simp only [idx4, List.mem_cons, List.not_mem_nil, or_false]
  omega

theorem valGridFold_not_mem {l : List Tile} {p : Cell} :
    ∀ g0 : Cell → Int, (∀ t ∈ l, t.cell ≠ p) →
      l.foldl (fun g t => fun q => if q = t.cell then t.value else g q) g0 p = g0 p := by
  induction l with
  | nil => intro g0 _; rfl
  | cons u us ih =>
    intro g0 h
    have hstep := ih (fun q => if q = u.cell then u.value else g0 q)
      (fun t ht => h t (List.mem_cons_of_mem u ht))
    simp only [List.foldl_cons] at *
    rw [hstep, if_neg (fun hq => h u (List.mem_cons_self u us) hq.symm)]

theorem valGridFold_mem {l : List Tile} {t : Tile} :
    ∀ g0 : Cell → Int, (l.map Tile.cell).Nodup → t ∈ l →
      l.foldl (fun g t => fun q => if q = t.cell then t.value else g q) g0 t.cell
        = t.value := by
  induction l with
  | nil => intro _ _ h; cases h
  | cons u us ih =>
    intro g0 hnd ht
    simp only [List.map_cons, List.nodup_cons] at hnd
    rcases List.mem_cons.mp ht with rfl | hmem
    · simp only [List.foldl_cons]
      rw [valGridFold_not_mem _ (fun v hv hc => hnd.1 (by
        rw [← hc]; exact List.mem_map.mpr ⟨v, hv, rfl⟩))]
      simp
    · exact ih _ hnd.2 hmem

theorem valGrid_of_mem {tiles : List Tile} {t : Tile}
    (hnd : (tiles.map Tile.cell).Nodup) (ht : t ∈ tiles) :
    valGrid tiles t.cell = t.value :=
  valGridFold_mem _ hnd ht

theorem length_lt_16_iff_empty {tiles : List Tile} (h : WF tiles) :
    tiles.length < 16 ↔ hasEmptyCell tiles := by
  have hsub : (tiles.map Tile.cell).toFinset ⊆ allCells.toFinset := by
    intro p hp
    rw [List.mem_toFinset] at hp ⊢
    obtain ⟨t, ht, rfl⟩ := List.mem_map.mp hp
    exact mem_allCells.mpr (h.1 t ht)
  have hcard : (tiles.map Tile.cell).toFinset.card = tiles.length := by
    rw [List.toFinset_card_of_nodup h.2, List.length_map]
  have hall : allCells.toFinset.card = 16 := by decide
  constructor
  · intro hlt
    by_contra hno
    rw [hasEmptyCell] at hno
    push_neg at hno
    have hsup : allCells.toFinset ⊆ (tiles.map Tile.cell).toFinset := by
      intro p hp
      rw [List.mem_toFinset] at hp ⊢
      obtain ⟨t, ht, hc⟩ := hno p (mem_allCells.mp hp)
      exact List.mem_map.mpr ⟨t, ht, hc⟩
    have := Finset.card_le_card hsup
    omega
  · rintro ⟨p, hpin, hpf⟩
    have hsub' : (tiles.map Tile.cell).toFinset ⊆ allCells.toFinset \ {p} := by
      intro c hc
      rw [List.mem_toFinset] at hc
      obtain ⟨t, ht, rfl⟩ := List.mem_map.mp hc
      rw [Finset.mem_sdiff, Finset.mem_singleton, List.mem_toFinset]
      exact ⟨mem_allCells.mpr (h.1 t ht), hpf t ht⟩
    have hc15 : (allCells.toFinset \ {p}).card ≤ 15 := by
      have hps : {p} ⊆ allCells.toFinset := by
        rw [Finset.singleton_subset_iff, List.mem_toFinset, mem_allCells]
        exact hpin
      rw [Finset.card_sdiff hps, hall]
      simp
    have := Finset.card_le_card hsub'
    omega

/-- Full-grid coverage: with 16 well-formed tiles, every in-bounds cell is
occupied by some tile. -/
theorem coverage_of_full {tiles : List Tile} (h : WF tiles)
    (hlen : ¬ tiles.length < 16) {p : Cell} (hp : inBounds p) :
    ∃ t ∈ tiles, t.cell = p := by
  have hno : ¬ hasEmptyCell tiles := fun he =>
    hlen ((length_lt_16_iff_empty h).mpr he)
  rw [hasEmptyCell] at hno
  push_neg at hno
  exact hno p hp

/-- C6: `can_move` returns false iff the grid has no empty cell and no two
orthogonally adjacent cells hold equal values. -/
theorem c6_can_move_iff (tiles : List Tile) (h : WF tiles) :
    can_move tiles = false ↔ ¬ hasEmptyCell tiles ∧ ¬ adjEqualPair tiles := by
  by_cases hlt : tiles.length < 16
  · have hcm : can_move tiles = true := by simp [can_move, hlt]
    rw [hcm]
    simp only [Bool.true_eq_false, false_iff, not_and]
    intro hne
    exact absurd ((length_lt_16_iff_empty h).mp hlt) hne
  · have hne : ¬ hasEmptyCell tiles := fun he =>
      hlt ((length_lt_16_iff_empty h).mpr he)
    have hcm : can_move tiles =
        idx4.any (fun r => idx4.any (fun c =>
          (decide (c + 1 < 4) &&
            decide (valGrid tiles (r, c) = valGrid tiles (r, c + 1))) ||
          (decide (r + 1 < 4) &&
            decide (valGrid tiles (r, c) = valGrid tiles (r + 1, c))))) := by
      simp [can_move, hlt]
    constructor
    · intro hfalse
      refine ⟨hne, fun hadj => ?_⟩
      obtain ⟨t, ht, u, hu, hadj, hv⟩ := hadj
      have hscan : can_move tiles = true := by
        rw [hcm, List.any_eq_true]
        have htb : inBounds t.cell := h.1 t ht
        have hub : inBounds u.cell := h.1 u hu
        refine ⟨t.row, mem_idx4.mpr ⟨htb.1, htb.2.1⟩, ?_⟩
        rw [List.any_eq_true]
        refine ⟨t.col, mem_idx4.mpr ⟨htb.2.2.1, htb.2.2.2⟩, ?_⟩
        simp only [Bool.or_eq_true, Bool.and_eq_true, decide_eq_true_eq]
        rcases hadj with hh | hv'
        · left
          have hu4 : t.col + 1 < 4 := by
            rw [hh] at hub
            exact hub.2.2.2
          refine ⟨hu4, ?_⟩
          have h1 : valGrid tiles (t.row, t.col) = t.value := by
            have := valGrid_of_mem h.2 ht
            rwa [Tile.cell] at this
          have h2 : valGrid tiles (t.row, t.col + 1) = u.value := by
            have := valGrid_of_mem h.2 hu
            rwa [hh] at this
          rw [h1, h2, hv]
        · right
          have hu4 : t.row + 1 < 4 := by
            rw [hv'] at hub
            exact hub.2.1
          refine ⟨hu4, ?_⟩
          have h1 : valGrid tiles (t.row, t.col) = t.value := by
            have := valGrid_of_mem h.2 ht
            rwa [Tile.cell] at this
          have h2 : valGrid tiles (t.row + 1, t.col) = u.value := by
            have := valGrid_of_mem h.2 hu
            rwa [hv'] at this
          rw [h1, h2, hv]
      rw [hfalse] at hscan
      cases hscan
    · rintro ⟨-, hnadj⟩
      cases hscan : can_move tiles
      · rfl
      · exfalso
        rw [hcm, List.any_eq_true] at hscan
        obtain ⟨r, hr, hinner⟩ := hscan
        rw [List.any_eq_true] at hinner
        obtain ⟨c, hc, hcase⟩ := hinner
        rw [mem_idx4] at hr hc
        simp only [Bool.or_eq_true, Bool.and_eq_true, decide_eq_true_eq] at hcase
        apply hnadj
        rcases hcase with ⟨hlt4, heq⟩ | ⟨hlt4, heq⟩
        · obtain ⟨t, ht, htc⟩ := coverage_of_full h hlt
            (p := (r, c)) ⟨hr.1, hr.2, hc.1, hc.2⟩
          obtain ⟨u, hu, huc⟩ := coverage_of_full h hlt
            (p := (r, c + 1)) ⟨hr.1, hr.2, by omega, hlt4⟩
          refine ⟨t, ht, u, hu, Or.inl ?_, ?_⟩
          · rw [huc]
            have h3 : t.row = r ∧ t.col = c := by
              rw [Tile.cell, Prod.mk.injEq] at htc
              exact htc
            rw [h3.1, h3.2]
          · rw [← valGrid_of_mem h.2 ht, ← valGrid_of_mem h.2 hu, htc, huc]
            exact heq.symm
        · obtain ⟨t, ht, htc⟩ := coverage_of_full h hlt
            (p := (r, c)) ⟨hr.1, hr.2, hc.1, hc.2⟩
          obtain ⟨u, hu, huc⟩ := coverage_of_full h hlt
            (p := (r + 1, c)) ⟨by omega, hlt4, hc.1, hc.2⟩
          refine ⟨t, ht, u, hu, Or.inr ?_, ?_⟩
          · rw [huc]
            have h3 : t.row = r ∧ t.col = c := by
              rw [Tile.cell, Prod.mk.injEq] at htc
              exact htc
            rw [h3.1, h3.2]
          · rw [← valGrid_of_mem h.2 ht, ← valGrid_of_mem h.2 hu, htc, huc]
            exact heq.symm

/-- C6 witness: the theorem applied to a two-tile collection. -/
theorem c6_witness :
    WF exPair ∧
      (can_move exPair = false ↔ ¬ hasEmptyCell exPair ∧ ¬ adjEqualPair exPair) :=
  ⟨by decide, c6_can_move_iff exPair (by decide)⟩

/-! ## Heavy invariant machinery for the transition engine -/

theorem tget_mem {l : List Tile} {i : Nat} (h : i < l.length) : tget l i ∈ l := by
  rw [tget_eq_getElem h]
  exact List.getElem_mem h

theorem liveSum_lmod {l : List Tile} {i : Nat} (f : Tile → Tile)
    (h : i < l.length) :
    liveSum (lmod l i f) = liveSum l + wval (f (tget l i)) - wval (tget l i) := by
  induction l generalizing i with
  | nil => simp at h
  | cons t ts ih =>
    cases i with
    | zero =>
      simp only [lmod, liveSum, List.map_cons, List.sum_cons, tget,
        List.getD_cons_zero]
      ring
    | succ j =>
      simp only [List.length_cons, Nat.add_lt_add_iff_right] at h
      simp only [lmod, liveSum, List.map_cons, List.sum_cons, tget,
        List.getD_cons_succ]
      have := ih h
      simp only [liveSum, tget] at this
      rw [this]
      ring

theorem cells_injective {base : List Tile} (h : (base.map Tile.cell).Nodup)
    {a b : Nat} (ha : a < base.length) (hb : b < base.length)
    (hc : (tget base a).cell = (tget base b).cell) : a = b := by
  have ha' : a < (base.map Tile.cell).length := by simpa using ha
  have hb' : b < (base.map Tile.cell).length := by simpa using hb
  have hga : (base.map Tile.cell)[a] = (tget base a).cell := by
    rw [List.getElem_map, tget_eq_getElem ha]
  have hgb : (base.map Tile.cell)[b] = (tget base b).cell := by
    rw [List.getElem_map, tget_eq_getElem hb]
  by_contra hne
  exact hne (h.getElem_inj_iff.mp (by rw [hga, hgb, hc]))

theorem buildGridAux {base : List Tile} (h : (base.map Tile.cell).Nodup) :
    ∀ k, k ≤ base.length → ∀ p i,
      ((List.range k).foldl (fun g m => gset g (tget base m).cell (some m))
          (fun _ => none) p = some i) ↔
        (i < k ∧ (tget base i).cell = p) := by
  intro k
  induction k with
  | zero => intro _ p i; simp
  | succ k ih =>
    intro hk p i
    rw [List.range_succ, List.foldl_append, List.foldl_cons, List.foldl_nil]
    by_cases hp : p = (tget base k).cell
    · subst hp
      rw [gset_self]
      constructor
      · rintro hsome
        have : k = i := by simpa using hsome
        subst this
        exact ⟨by omega, rfl⟩
      · rintro ⟨hi, hc⟩
        have : i = k := by
          rcases Nat.lt_succ_iff_lt_or_eq.mp hi with hlt | rfl
          · exact cells_injective h (by omega) (by omega) hc
          · rfl
        subst this
        rfl
    · rw [gset_ne _ _ (fun he => hp he)]
      rw [ih (by omega) p i]
      constructor
      · rintro ⟨hi, hc⟩
        exact ⟨by omega, hc⟩
      · rintro ⟨hi, hc⟩
        refine ⟨?_, hc⟩
        rcases Nat.lt_succ_iff_lt_or_eq.mp hi with hlt | rfl
        · exact hlt
        · exact absurd hc.symm hp

theorem buildGrid_eq_some {base : List Tile} (h : (base.map Tile.cell).Nodup)
    {p : Cell} {i : Nat} :
    buildGrid base p = some i ↔ i < base.length ∧ (tget base i).cell = p :=
  buildGridAux h base.length le_rfl p i

theorem baseWF_of_WF {tiles : List Tile} (h : WF tiles) :
    BaseWF (reset_merged_flags tiles) := by
  have hlen : (reset_merged_flags tiles).length = tiles.length := reset_length tiles
  have hcells : (reset_merged_flags tiles).map Tile.cell = tiles.map Tile.cell := by
    simp only [reset_merged_flags, List.map_map]
    rfl
  refine ⟨fun m hm => ?_, fun m hm => ?_, by rw [hcells]; exact h.2⟩
  · rw [tget_reset (by omega)]
    exact ⟨rfl, rfl⟩
  · rw [show (tget (reset_merged_flags tiles) m).cell = (tget tiles m).cell by
      rw [tget_reset (by omega)]; rfl]
    exact h.1 _ (tget_mem (by omega))

theorem inv_zero {d : Dir} {tiles : List Tile} (h : WF tiles) :
    Inv d (reset_merged_flags tiles) 0 (moveState0 tiles) := by
  have hb := baseWF_of_WF h
  set base := reset_merged_flags tiles with hbase
  have hchar : ∀ p i, buildGrid base p = some i ↔
      i < base.length ∧ (tget base i).cell = p := fun p i =>
    buildGrid_eq_some hb.nodup
  have hgrid : (moveState0 tiles).grid = buildGrid base := rfl
  have htiles : (moveState0 tiles).tiles = base := rfl
  refine ⟨?_, rfl, ⟨?_, ?_, ?_, ?_⟩, ?_, ?_, ?_, ?_, ?_⟩
  · rw [htiles]
    exact shape_init (fun i hi => (hb.flags i hi).1)
  · intro p i hp
    rw [hgrid] at hp
    obtain ⟨hi, hc⟩ := (hchar p i).mp hp
    exact ⟨hi, hc ▸ hb.inb i hi⟩
  · intro p q i hp hq
    rw [hgrid] at hp hq
    obtain ⟨_, hc⟩ := (hchar p i).mp hp
    obtain ⟨_, hc'⟩ := (hchar q i).mp hq
    rw [← hc, ← hc']
  · intro p i hp
    rw [hgrid] at hp
    obtain ⟨hi, _⟩ := (hchar p i).mp hp
    rw [htiles]
    exact (hb.flags i hi).2
  · intro i hi _
    refine ⟨(tget base i).cell, ?_⟩
    rw [hgrid]
    exact (hchar _ i).mpr ⟨hi, rfl⟩
  · intro p i hp hrk
    rw [hgrid] at hp
    obtain ⟨hi, hc⟩ := (hchar p i).mp hp
    have := rank_nonneg_of_inBounds (d := d) (hc ▸ hb.inb i hi)
    omega
  · intro p i hp _
    rw [hgrid] at hp
    obtain ⟨hi, hc⟩ := (hchar p i).mp hp
    exact ⟨rfl, hc.symm⟩
  · intro _
    refine ⟨rfl, fun m hm => ⟨fun hlt => ?_, fun _ => rfl⟩⟩
    have := rank_nonneg_of_inBounds (d := d) (hb.inb m hm)
    omega
  · intro hmv
    cases hmv
  · intro m hm hrm
    rw [htiles] at hrm
    rw [(hb.flags m hm).2] at hrm
    cases hrm

theorem post_of_exit {d : Dir} {base : List Tile} {k i : Nat} {s : MoveState}
    {cur : Cell} (h : LInv d base k i s cur) : Post d base k i (s, cur) := by
  refine ⟨h.shape, h.sum, h.gok, h.inB, ?_, h.irank, h.settledO, h.freshO,
    ?_, ?_, ?_, Or.inl ⟨h.icur, h.ifresh⟩⟩
  · rw [← h.irankk]
    exact h.irank
  · intro hmf
    exact h.movedF hmf
  · intro hmt
    rcases h.movedT hmt with hc | hc | hc
    · exact Or.inl hc
    · exact Or.inr (Or.inl hc)
    · exact Or.inr (Or.inr hc)
  · intro m hm _ hrm
    exact h.removed m hm hrm

theorem linv_slide {d : Dir} {base : List Tile} {k i : Nat} {s : MoveState}
    {cur : Cell} (hb : BaseWF base) (h : LInv d base k i s cur)
    (hw : inBounds (nextPos d cur)) (hg : s.grid (nextPos d cur) = none) :
    LInv d base k i (slideState s i cur (nextPos d cur)) (nextPos d cur) := by
  set n' := nextPos d cur with hn'
  have hcn : n' ≠ cur := nextPos_ne d cur
  have hread : ∀ p, (slideState s i cur n').grid p =
      if p = cur then none else if p = n' then some i else s.grid p := by
    intro p
    simp only [slideState, gset]
  have hIOnly : ∀ p, s.grid p = some i → p = cur := fun p hp =>
    h.gok.inj p cur i hp h.icur
  have hiLt : i < base.length := (h.gok.wf cur i h.icur).1
  have htiles : (slideState s i cur n').tiles = s.tiles := rfl
  have hrknext : rank d n' = rank d cur - 1 := rank_nextPos d cur
  have hiRm : (tget s.tiles i).to_remove = false := by
    rw [h.ifresh]
    exact (hb.flags i hiLt).2
  have hiMg : (tget s.tiles i).merged = false := by
    rw [h.ifresh]
    exact (hb.flags i hiLt).1
  have hcharS : ∀ p m, (slideState s i cur n').grid p = some m ↔
      ((p = n' ∧ m = i) ∨ (p ≠ n' ∧ p ≠ cur ∧ s.grid p = some m)) := by
    intro p m
    rw [hread]
    by_cases h1 : p = cur
    · subst h1
      rw [if_pos rfl]
      constructor
      · intro hx
        cases hx
      · rintro (⟨he, _⟩ | ⟨_, hne, _⟩)
        · exact (hcn he.symm).elim
        · exact (hne rfl).elim
    · by_cases h2 : p = n'
      · subst h2
        rw [if_neg h1, if_pos rfl]
        constructor
        · intro hx
          exact Or.inl ⟨rfl, (Option.some.inj hx).symm⟩
        · rintro (⟨_, rfl⟩ | ⟨hne, _, _⟩)
          · rfl
          · exact absurd rfl hne
      · rw [if_neg h1, if_neg h2]
        constructor
        · intro hx
          exact Or.inr ⟨h2, h1, hx⟩
        · rintro (⟨he, _⟩ | ⟨_, _, hx⟩)
          · exact absurd he h2
          · exact hx
  refine ⟨h.shape, h.sum, ⟨?_, ?_, ?_, ?_⟩, hw, ?_, h.ifresh, ?_, h.irankk,
    ?_, ?_, ?_, ?_, ?_⟩
  · -- wf
    intro p m hp
    rcases (hcharS p m).mp hp with ⟨rfl, rfl⟩ | ⟨_, _, hold⟩
    · exact ⟨hiLt, hw⟩
    · exact h.gok.wf p m hold
  · -- inj
    intro p q m hp hq
    rcases (hcharS p m).mp hp with ⟨rfl, rfl⟩ | ⟨hp1, hp2, holdp⟩ <;>
      rcases (hcharS q m).mp hq with ⟨hq1, hq2⟩ | ⟨hq1, hq2, holdq⟩
    · rw [hq1]
    · exact absurd (hIOnly q holdq) hq2
    · subst hq2
      exact absurd (hIOnly p holdp) hp2
    · exact h.gok.inj p q m holdp holdq
  · -- live
    intro p m hp
    rw [htiles]
    rcases (hcharS p m).mp hp with ⟨rfl, rfl⟩ | ⟨_, _, hold⟩
    · exact hiRm
    · exact h.gok.live p m hold
  · -- onGrid
    intro m hm hrm
    rw [htiles] at hrm
    obtain ⟨p, hp⟩ := h.gok.onGrid m hm hrm
    by_cases hpc : p = cur
    · subst hpc
      have hmi : m = i := by
        rw [h.icur] at hp
        exact (Option.some.inj hp).symm
      subst hmi
      exact ⟨n', (hcharS n' m).mpr (Or.inl ⟨rfl, rfl⟩)⟩
    · have hpn : p ≠ n' := fun he => by rw [he, hg] at hp; cases hp
      exact ⟨p, (hcharS p m).mpr (Or.inr ⟨hpn, hpc, hp⟩)⟩
  · -- icur
    exact (hcharS n' i).mpr (Or.inl ⟨rfl, rfl⟩)
  · -- irank
    rw [hrknext]
    have := h.irank
    omega
  · -- settledO
    intro p j hj hp hrk
    rw [htiles]
    rcases (hcharS p j).mp hp with ⟨rfl, rfl⟩ | ⟨_, _, hold⟩
    · exact absurd rfl hj
    · exact h.settledO p j hj hold hrk
  · -- freshO
    intro p j hj hp hrk
    rw [htiles]
    rcases (hcharS p j).mp hp with ⟨rfl, rfl⟩ | ⟨_, _, hold⟩
    · exact absurd rfl hj
    · exact h.freshO p j hj hold hrk
  · -- movedF
    intro hmf
    simp only [slideState] at hmf
    cases hmf
  · -- movedT
    intro _
    refine Or.inr (Or.inr ?_)
    intro he
    have h1 : rank d n' < rank d (tget base i).cell := by
      rw [hrknext, h.irankk]
      have := h.irank
      rw [h.irankk] at this
      omega
    rw [he] at h1
    omega
  · -- removed
    intro m hm hrm
    rw [htiles] at hrm ⊢
    obtain ⟨q, j, hq1, hq2, hq3, hq4, hq5, hq6, hq7, hq8⟩ := h.removed m hm hrm
    refine ⟨q, j, hq1, hq2, hq3, hq4, hq5, ?_, hq7, hq8⟩
    have hji : j ≠ i := fun he => by
      rw [he, hiMg] at hq7
      cases hq7
    have hqc : nextPos d q ≠ cur := fun he => by
      rw [he, h.icur] at hq6
      exact hji (Option.some.inj hq6).symm
    have hqn : nextPos d q ≠ n' := fun he => by
      rw [he, hg] at hq6
      cases hq6
    rw [hread, if_neg hqc, if_neg hqn]
    exact hq6

theorem post_merge {d : Dir} {base : List Tile} {k i j : Nat} {s : MoveState}
    {cur : Cell} (hb : BaseWF base) (h : LInv d base k i s cur)
    (hg : s.grid (nextPos d cur) = some j)
    (hcond : (tget s.tiles j).value = (tget s.tiles i).value ∧
      (tget s.tiles i).merged = false ∧ (tget s.tiles j).merged = false) :
    Post d base k i (mergeState s i j cur, cur) := by
  set n' := nextPos d cur with hn'
  have hcn : n' ≠ cur := nextPos_ne d cur
  have hIOnly : ∀ p, s.grid p = some i → p = cur := fun p hp =>
    h.gok.inj p cur i hp h.icur
  have hiLt : i < base.length := (h.gok.wf cur i h.icur).1
  have hjLt : j < base.length := (h.gok.wf n' j hg).1
  have hij : j ≠ i := by
    intro he
    rw [he] at hg
    exact hcn (hIOnly n' hg)
  have hsl : s.tiles.length = base.length := h.shape.len
  have hread : ∀ p, (mergeState s i j cur).grid p =
      if p = cur then none else s.grid p := by
    intro p
    simp only [mergeState, gset]
  have hcharM : ∀ p m, (mergeState s i j cur).grid p = some m ↔
      (p ≠ cur ∧ s.grid p = some m) := by
    intro p m
    rw [hread]
    by_cases h1 : p = cur
    · rw [if_pos h1]
      constructor
      · intro hx
        cases hx
      · rintro ⟨hne, _⟩
        exact absurd h1 hne
    · rw [if_neg h1]
      exact ⟨fun hx => ⟨h1, hx⟩, fun hx => hx.2⟩
  have hinner : tget (lmod s.tiles j mergeSurvivor) i = tget s.tiles i :=
    tget_lmod_ne _ (fun he => hij he.symm)
  have hti' : tget (mergeState s i j cur).tiles i = markRemoved (tget base i) := by
    show tget (lmod (lmod s.tiles j mergeSurvivor) i markRemoved) i = _
    rw [tget_lmod_self _ (by rw [lmod_length]; omega), hinner, h.ifresh]
  have htj' : tget (mergeState s i j cur).tiles j =
      mergeSurvivor (tget s.tiles j) := by
    show tget (lmod (lmod s.tiles j mergeSurvivor) i markRemoved) j = _
    rw [tget_lmod_ne _ hij, tget_lmod_self _ (by omega)]
  have hto' : ∀ m, m ≠ i → m ≠ j → tget (mergeState s i j cur).tiles m =
      tget s.tiles m := by
    intro m hmi hmj
    show tget (lmod (lmod s.tiles j mergeSurvivor) i markRemoved) m = _
    rw [tget_lmod_ne _ hmi, tget_lmod_ne _ hmj]
  have hjRm : (tget s.tiles j).to_remove = false := h.gok.live n' j hg
  have hiRm : (tget s.tiles i).to_remove = false := by
    rw [h.ifresh]
    exact (hb.flags i hiLt).2
  have hiMg : (tget s.tiles i).merged = false := by
    rw [h.ifresh]
    exact (hb.flags i hiLt).1
  have hbasev : (tget base j).value = (tget base i).value := by
    have h1 : (tget s.tiles j).value = (tget base j).value :=
      (h.shape.notMerged j hjLt hcond.2.2).1
    have h2 : (tget s.tiles i).value = (tget base i).value := by
      rw [h.ifresh]
    rw [← h1, ← h2]
    exact hcond.1
  refine ⟨shape_merge h.shape hcond.2.2, ?_, ⟨?_, ?_, ?_, ?_⟩, h.inB, ?_,
    h.irank, ?_, ?_, ?_, ?_, ?_, ?_⟩
  · -- liveSum conservation
    show liveSum (lmod (lmod s.tiles j mergeSurvivor) i markRemoved) = liveSum base
    rw [liveSum_lmod _ (by rw [lmod_length]; omega),
      liveSum_lmod _ (by omega), hinner, h.ifresh]
    have hw1 : wval (markRemoved (tget base i)) = 0 := by
      simp [wval, markRemoved]
    have hw2 : wval (tget base i) = (tget base i).value := by
      simp [wval, (hb.flags i hiLt).2]
    have hw3 : wval (mergeSurvivor (tget s.tiles j)) = (tget s.tiles j).value * 2 := by
      simp [wval, mergeSurvivor, hjRm]
    have hw4 : wval (tget s.tiles j) = (tget s.tiles j).value := by
      simp [wval, hjRm]
    rw [hw1, hw2, hw3, hw4, h.sum]
    have h2 : (tget s.tiles i).value = (tget base i).value := by
      rw [h.ifresh]
    have := hcond.1
    rw [h2] at this
    rw [this]
    ring
  · -- wf
    intro p m hp
    obtain ⟨_, hold⟩ := (hcharM p m).mp hp
    exact h.gok.wf p m hold
  · -- inj
    intro p q m hp hq
    obtain ⟨_, holdp⟩ := (hcharM p m).mp hp
    obtain ⟨_, holdq⟩ := (hcharM q m).mp hq
    exact h.gok.inj p q m holdp holdq
  · -- live
    intro p m hp
    obtain ⟨hpc, hold⟩ := (hcharM p m).mp hp
    have hmi : m ≠ i := fun he => hpc (hIOnly p (he ▸ hold))
    by_cases hmj : m = j
    · subst hmj
      rw [htj']
      show (tget s.tiles m).to_remove = false
      exact hjRm
    · rw [hto' m hmi hmj]
      exact h.gok.live p m hold
  · -- onGrid
    intro m hm hrm
    have hmi : m ≠ i := by
      intro he
      rw [he, hti'] at hrm
      cases hrm
    have hold : (tget s.tiles m).to_remove = false := by
      by_cases hmj : m = j
      · subst hmj
        exact hjRm
      · rw [hto' m hmi hmj] at hrm
        exact hrm
    obtain ⟨p, hp⟩ := h.gok.onGrid m hm hold
    have hpc : p ≠ cur := by
      intro he
      rw [he, h.icur] at hp
      exact hmi (Option.some.inj hp).symm
    exact ⟨p, (hcharM p m).mpr ⟨hpc, hp⟩⟩
  · -- rankle
    rw [← h.irankk]
    exact h.irank
  · -- settledO
    intro p j' hj' hp hrk
    obtain ⟨_, hold⟩ := (hcharM p j').mp hp
    by_cases hjj : j' = j
    · subst hjj
      rw [htj']
      show ((tget s.tiles j').target_x = _ ∧ (tget s.tiles j').target_y = _ ∧ _)
      exact h.settledO p j' hj' hold hrk
    · rw [hto' j' hj' hjj]
      exact h.settledO p j' hj' hold hrk
  · -- freshO
    intro p j' hj' hp hrk
    obtain ⟨_, hold⟩ := (hcharM p j').mp hp
    have hjj : j' ≠ j := by
      intro he
      subst he
      have hpn : p = n' := h.gok.inj p n' j' hold hg
      have : rank d n' = rank d cur - 1 := rank_nextPos d cur
      have hcu : rank d cur ≤ (k : Int) := by
        rw [← h.irankk]
        exact h.irank
      rw [hpn] at hrk
      omega
    rw [hto' j' hj' hjj]
    exact h.freshO p j' hj' hold hrk
  · -- movedF
    intro hmf
    simp only [mergeState] at hmf
    cases hmf
  · -- movedT
    intro _
    exact Or.inl ⟨i, hiLt, by rw [hti']; rfl⟩
  · -- removedO
    intro m hm hmi hrm
    by_cases hmj : m = j
    · subst hmj
      rw [htj'] at hrm
      change (tget s.tiles m).to_remove = true at hrm
      rw [hjRm] at hrm
      cases hrm
    · rw [hto' m hmi hmj] at hrm ⊢
      obtain ⟨q, j0, hq1, hq2, hq3, hq4, hq5, hq6, hq7, hq8⟩ := h.removed m hm hrm
      have hj0i : j0 ≠ i := by
        intro he
        rw [he, hiMg] at hq7
        cases hq7
      have hqc : nextPos d q ≠ cur := by
        intro he
        rw [he, h.icur] at hq6
        exact hj0i (Option.some.inj hq6).symm
      refine ⟨q, j0, hq1, hq2, hq3, hq4, hq5, (hcharM _ j0).mpr ⟨hqc, hq6⟩, ?_, hq8⟩
      by_cases hj0j : j0 = j
      · subst hj0j
        rw [htj']
        rfl
      · rw [hto' j0 hj0i hj0j]
        exact hq7
  · -- outcome
    refine Or.inr ⟨?_, hti', j, hjLt, hij, ?_, ?_, hbasev⟩
    · intro p hp
      obtain ⟨hpc, hold⟩ := (hcharM p i).mp hp
      exact hpc (hIOnly p hold)
    · exact (hcharM n' j).mpr ⟨hcn, hg⟩
    · rw [htj']
      rfl

theorem stepLoop_post {d : Dir} {base : List Tile} {k i : Nat}
    (hb : BaseWF base) :
    ∀ (fuel : Nat) (s : MoveState) (cur : Cell), LInv d base k i s cur →
      Post d base k i (stepLoop d i fuel s cur) := by
  intro fuel
  induction fuel with
  | zero => intro s cur h; exact post_of_exit h
  | succ fuel ih =>
    intro s cur h
    simp only [stepLoop]
    by_cases hw : withinB (nextPos d cur)
    · rw [if_pos hw]
      split
      · next hgeq => exact ih _ _ (linv_slide hb h (withinB_eq_true.mp hw) hgeq)
      · next j hgeq =>
        split
        · next hcond => exact post_merge hb h hgeq hcond
        · next => exact post_of_exit h
    · rw [if_neg hw]
      exact post_of_exit h

theorem processCell_inv {d : Dir} {base : List Tile} {k : Nat} {s : MoveState}
    (hb : BaseWF base) (hk : k < 16) (h : Inv d base k s) :
    Inv d base (k + 1) (processCell d s (cellOfRank d k)) := by
  set p := cellOfRank d k with hpdef
  have hpin : inBounds p := inBounds_cellOfRank hk
  have hprk : rank d p = (k : Int) := rank_cellOfRank hk
  simp only [processCell]
  cases hgp : s.grid p with
  | none =>
    refine ⟨h.shape, h.sum, h.gok, ?_, ?_, ?_, ?_, h.removed⟩
    · -- settled
      intro p' m hp' hrk
      have hin' : inBounds p' := (h.gok.wf p' m hp').2
      by_cases hlt : rank d p' < (k : Int)
      · exact h.settled p' m hp' hlt
      · have : rank d p' = (k : Int) := by push_cast at hrk ⊢; omega
        have : p' = p := rank_injOn hin' hpin (by rw [this, hprk])
        rw [this, hgp] at hp'
        cases hp'
    · -- fresh
      intro p' m hp' hrk
      exact h.fresh p' m hp' (by push_cast at hrk ⊢; omega)
    · -- movedF
      intro hmf
      obtain ⟨hg0, hsplit⟩ := h.movedF hmf
      refine ⟨hg0, fun m hm => ⟨fun hlt => ?_, fun hge => ?_⟩⟩
      · by_cases hlt' : rank d (tget base m).cell < (k : Int)
        · exact (hsplit m hm).1 hlt'
        · exfalso
          have hrkm : rank d (tget base m).cell = (k : Int) := by
            push_cast at hlt ⊢; omega
          have hpp : (tget base m).cell = p :=
            rank_injOn (hb.inb m hm) hpin (by rw [hrkm, hprk])
          have : s.grid p = some m := by
            rw [hg0, ← hpp]
            exact (buildGrid_eq_some hb.nodup).mpr ⟨hm, rfl⟩
          rw [hgp] at this
          cases this
      · exact (hsplit m hm).2 (by push_cast at hge ⊢; omega)
    · -- movedT
      intro hmt
      rcases h.movedT hmt with hc | ⟨p', j, h1, h2, h3, h4⟩
      · exact Or.inl hc
      · exact Or.inr ⟨p', j, h1, h2, h3, by push_cast at h4 ⊢; omega⟩
  | some i =>
    show Inv d base (k + 1) (targetState (stepLoop d i 20 s p) i)
    have hiLt : i < base.length := (h.gok.wf p i hgp).1
    have hifr := h.fresh p i hgp (le_of_eq hprk.symm)
    have hlinv : LInv d base k i s p := by
      refine ⟨h.shape, h.sum, h.gok, hpin, hgp, hifr.1, le_of_eq ?_, ?_,
        fun p' j hj hp' hrk => h.settled p' j hp' hrk,
        fun p' j _ hp' hrk => h.fresh p' j hp' hrk, ?_, ?_, h.removed⟩
      · rw [← hifr.2]
      · rw [← hifr.2, hprk]
      · intro hmf
        obtain ⟨hg0, hsplit⟩ := h.movedF hmf
        exact ⟨hg0, hifr.2, hsplit⟩
      · intro hmt
        rcases h.movedT hmt with hc | hc
        · exact Or.inl hc
        · exact Or.inr (Or.inl hc)
    have hpost := stepLoop_post hb 20 s p hlinv
    set r := stepLoop d i 20 s p with hrdef
    have hlen' : r.1.tiles.length = base.length := hpost.shape.len
    have hti : tget (targetState r i).tiles i =
        { tget r.1.tiles i with target_x := r.2.2 * RECT_WIDTH
                                target_y := r.2.1 * RECT_HEIGHT } := by
      show tget (lmod r.1.tiles i _) i = _
      rw [tget_lmod_self _ (by omega)]
    have htt : ∀ m, m ≠ i → tget (targetState r i).tiles m = tget r.1.tiles m := by
      intro m hm
      show tget (lmod r.1.tiles i _) m = _
      rw [tget_lmod_ne _ hm]
    have hgr : (targetState r i).grid = r.1.grid := rfl
    have hmvr : (targetState r i).moved = r.1.moved := rfl
    have hRm : ∀ m, (tget (targetState r i).tiles m).to_remove =
        (tget r.1.tiles m).to_remove := by
      intro m
      by_cases hm : m = i
      · subst hm; rw [hti]
      · rw [htt m hm]
    refine ⟨shape_target hpost.shape, ?_, ⟨?_, ?_, ?_, ?_⟩, ?_, ?_, ?_, ?_, ?_⟩
    · -- sum
      show liveSum (lmod r.1.tiles i _) = liveSum base
      rw [liveSum_lmod _ (by omega)]
      have : wval { tget r.1.tiles i with target_x := r.2.2 * RECT_WIDTH, target_y := r.2.1 * RECT_HEIGHT } = wval (tget r.1.tiles i) := by
        simp [wval]
      rw [this, hpost.sum]
      ring
    · -- wf
      intro p' m hp'
      rw [hgr] at hp'
      exact hpost.gok.wf p' m hp'
    · -- inj
      intro p' q' m hp' hq'
      rw [hgr] at hp' hq'
      exact hpost.gok.inj p' q' m hp' hq'
    · -- live
      intro p' m hp'
      rw [hgr] at hp'
      rw [hRm]
      exact hpost.gok.live p' m hp'
    · -- onGrid
      intro m hm hrm
      rw [hRm] at hrm
      obtain ⟨p', hp'⟩ := hpost.gok.onGrid m hm hrm
      exact ⟨p', by rw [hgr]; exact hp'⟩
    · -- settled
      intro p' m hp' hrk
      rw [hgr] at hp'
      by_cases hmi : m = i
      · subst hmi
        rcases hpost.outcome with ⟨hgr2, _⟩ | ⟨hnone, _, _⟩
        · have hpr2 : p' = r.2 := hpost.gok.inj p' r.2 m hp' hgr2
          subst hpr2
          rw [hti]
          exact ⟨rfl, rfl, hpost.rankle0⟩
        · exact absurd hp' (hnone p')
      · by_cases hlt : rank d p' < (k : Int)
        · rw [htt m hmi]
          exact hpost.settledO p' m hmi hp' hlt
        · exfalso
          have hin' : inBounds p' := (hpost.gok.wf p' m hp').2
          have hrkm : rank d p' = (k : Int) := by push_cast at hrk ⊢; omega
          obtain ⟨_, hcell⟩ := hpost.freshO p' m hmi hp' (le_of_eq hrkm.symm)
          have hpp : p' = p := rank_injOn hin' hpin (by rw [hrkm, hprk])
          have : m = i := by
            refine cells_injective hb.nodup (hpost.gok.wf p' m hp').1 hiLt ?_
            rw [← hcell, hpp, hifr.2]
          exact hmi this
    · -- fresh
      intro p' m hp' hrk
      rw [hgr] at hp'
      by_cases hmi : m = i
      · subst hmi
        rcases hpost.outcome with ⟨hgr2, _⟩ | ⟨hnone, _, _⟩
        · exfalso
          have hpr2 : p' = r.2 := hpost.gok.inj p' r.2 m hp' hgr2
          have := hpost.rankle
          rw [hpr2] at hrk
          push_cast at hrk
          omega
        · exact absurd hp' (hnone p')
      · obtain ⟨hrec, hcell⟩ := hpost.freshO p' m hmi hp'
          (by push_cast at hrk ⊢; omega)
        rw [htt m hmi]
        exact ⟨hrec, hcell⟩
    · -- movedF
      intro hmf
      rw [hmvr] at hmf
      obtain ⟨hg0, hr2, hsplit⟩ := hpost.movedF hmf
      refine ⟨by rw [hgr]; exact hg0, fun m hm => ⟨fun hlt => ?_, fun hge => ?_⟩⟩
      · by_cases hmi : m = i
        · subst hmi
          have hrec : tget r.1.tiles m = tget base m :=
            (hsplit m hm).2 (by rw [hifr.2] at hprk; rw [hprk])
          rw [hti, hrec, hr2]
          rfl
        · by_cases hlt' : rank d (tget base m).cell < (k : Int)
          · rw [htt m hmi]
            exact (hsplit m hm).1 hlt'
          · exfalso
            have hrkm : rank d (tget base m).cell = (k : Int) := by
              push_cast at hlt ⊢; omega
            have hpp : (tget base m).cell = p :=
              rank_injOn (hb.inb m hm) hpin (by rw [hrkm, hprk])
            have : m = i := by
              refine cells_injective hb.nodup hm hiLt ?_
              rw [hpp, hifr.2]
            exact hmi this
      · have hmi : m ≠ i := by
          intro he
          subst he
          rw [hifr.2] at hprk
          push_cast at hge
          omega
        rw [htt m hmi]
        exact (hsplit m hm).2 (by push_cast at hge ⊢; omega)
    · -- movedT
      intro hmt
      rw [hmvr] at hmt
      rcases hpost.movedT hmt with ⟨m, hm, hrm⟩ | ⟨p', j, h1, h2, h3, h4⟩ | hout
      · exact Or.inl ⟨m, hm, by rw [hRm]; exact hrm⟩
      · exact Or.inr ⟨p', j, by rw [hgr]; exact h1, h2, h3,
          by push_cast at h4 ⊢; omega⟩
      · rcases hpost.outcome with ⟨hgr2, _⟩ | ⟨_, hrec, _⟩
        · refine Or.inr ⟨r.2, i, by rw [hgr]; exact hgr2, hiLt, hout, ?_⟩
          have := hpost.rankle
          push_cast
          omega
        · refine Or.inl ⟨i, hiLt, ?_⟩
          rw [hRm, hrec]
          rfl
    · -- removed
      intro m hm hrm
      by_cases hmi : m = i
      · subst hmi
        rcases hpost.outcome with ⟨_, hrec⟩ | ⟨_, hrec, j, hj, hij, hgj, hmg, hvl⟩
        · exfalso
          rw [hRm, hrec] at hrm
          rw [(hb.flags m hm).2] at hrm
          cases hrm
        · refine ⟨r.2, j, hpost.inB, hj, ?_, ?_, ?_, ?_, ?_, hvl⟩
          · rw [hti]
          · rw [hti]
          · rw [hti]
            show (tget r.1.tiles m).merged = false
            rw [hrec]
            show (tget base m).merged = false
            exact (hb.flags m hm).1
          · rw [hgr]
            exact hgj
          · rw [htt j (fun he => hij he)]
            exact hmg
      · rw [hRm] at hrm
        obtain ⟨q, j0, hq1, hq2, hq3, hq4, hq5, hq6, hq7, hq8⟩ :=
          hpost.removedO m hm hmi hrm
        have hj0i : j0 ≠ i := by
          intro he
          subst he
          rcases hpost.outcome with ⟨_, hrec⟩ | ⟨_, hrec, _⟩
          · rw [hrec, (hb.flags j0 hq2).1] at hq7
            cases hq7
          · rw [hrec] at hq7
            change (tget base j0).merged = true at hq7
            rw [(hb.flags j0 hq2).1] at hq7
            cases hq7
        refine ⟨q, j0, hq1, hq2, ?_, ?_, ?_, by rw [hgr]; exact hq6, ?_, hq8⟩
        · rw [htt m hmi]; exact hq3
        · rw [htt m hmi]; exact hq4
        · rw [htt m hmi]; exact hq5
        · rw [htt j0 hj0i]; exact hq7

theorem inv_runMove {tiles : List Tile} {d : Dir} (h : WF tiles) :
    Inv d (reset_merged_flags tiles) 16 (runMove tiles d) := by
  have hb := baseWF_of_WF h
  have key : ∀ k, k ≤ 16 →
      Inv d (reset_merged_flags tiles) k
        (((List.range k).map (cellOfRank d)).foldl (processCell d)
          (moveState0 tiles)) := by
    intro k
    induction k with
    | zero => intro _; exact inv_zero h
    | succ k ih =>
      intro hk
      rw [List.range_succ, List.map_append, List.foldl_append]
      simp only [List.map_cons, List.map_nil, List.foldl_cons, List.foldl_nil]
      exact processCell_inv hb (by omega) (ih (by omega))
  have h16 := key 16 le_rfl
  rwa [runMove, traverse_eq_map]

theorem runMove_len {tiles : List Tile} {d : Dir} (h : WF tiles) :
    (runMove tiles d).tiles.length = tiles.length := by
  have := (inv_runMove (d := d) h).shape.len
  rwa [reset_length] at this

/-- Every grid entry of the final state is settled: the tile's target is
the pixel position of the cell holding it, which is at most as far along
the traversal as its original cell. -/
theorem runMove_settled {tiles : List Tile} {d : Dir} (h : WF tiles)
    {p : Cell} {m : Nat} (hp : (runMove tiles d).grid p = some m) :
    (tget (runMove tiles d).tiles m).target_x = p.2 * RECT_WIDTH ∧
    (tget (runMove tiles d).tiles m).target_y = p.1 * RECT_HEIGHT ∧
    rank d p ≤ rank d (tget tiles m).cell := by
  have hin := (inv_runMove (d := d) h).gok.wf p m hp
  have hrk := rank_nonneg_of_inBounds (d := d) hin.2
  have hs := (inv_runMove (d := d) h).settled p m hp (by push_cast; omega)
  have hcell : (tget (reset_merged_flags tiles) m).cell = (tget tiles m).cell := by
    rw [tget_reset (by rw [← reset_length tiles]; exact hin.1)]
    rfl
  rw [hcell] at hs
  exact hs

/-! ## C10: removed tiles stop one cell short of their merge partner -/

/-- C10: every tile flagged for removal by a merge has its target set to an
in-bounds cell one step short (against the move direction) of a surviving
tile that is merge-flagged and carries exactly double the removed tile's
pre-move value; the removed tile's target cell differs from the survivor's
cell, and the flagged tiles are purged from the live collection before
`move` returns. -/
theorem c10_removed_target_short (tiles : List Tile) (d : Dir) (h : WF tiles) :
    (∀ i, i < tiles.length → (tget (moveAll tiles d).1 i).to_remove = true →
      ∃ q, inBounds q ∧
        (tget (moveAll tiles d).1 i).target_x = q.2 * RECT_WIDTH ∧
        (tget (moveAll tiles d).1 i).target_y = q.1 * RECT_HEIGHT ∧
        nextPos d q ≠ q ∧
        ∃ j, j < tiles.length ∧
          (tget (moveAll tiles d).1 j).to_remove = false ∧
          (tget (moveAll tiles d).1 j).merged = true ∧
          (tget (moveAll tiles d).1 j).target_x = (nextPos d q).2 * RECT_WIDTH ∧
          (tget (moveAll tiles d).1 j).target_y = (nextPos d q).1 * RECT_HEIGHT ∧
          (tget (moveAll tiles d).1 j).value = 2 * (tget tiles i).value) ∧
    (move tiles d).1 = (moveAll tiles d).1.filter (fun t => t.to_remove = false) := by
  refine ⟨fun i hi hrm => ?_, rfl⟩
  have INV := inv_runMove (d := d) h
  have hbl : i < (reset_merged_flags tiles).length := by
    rw [reset_length]; exact hi
  obtain ⟨q, j, hq1, hq2, hq3, hq4, _, hq6, hq7, hq8⟩ := INV.removed i hbl hrm
  have hjset := runMove_settled h hq6
  have hjlive : (tget (runMove tiles d).tiles j).to_remove = false :=
    INV.gok.live _ j hq6
  have hjval : (tget (runMove tiles d).tiles j).value =
      2 * (tget tiles i).value := by
    have hmg := (INV.shape.isMerged j hq2 hq7).1
    rw [hmg, hq8]
    have : (tget (reset_merged_flags tiles) i).value = (tget tiles i).value := by
      rw [tget_reset hi]
    rw [this]
  exact ⟨q, hq1, hq3, hq4, nextPos_ne d q,
    j, by rwa [reset_length] at hq2, hjlive, hq7, hjset.1, hjset.2.1, hjval⟩

/-- C10 witness: the theorem applied to a concrete merging row. -/
theorem c10_witness :
    WF exPair ∧ 1 < exPair.length ∧
      (tget (moveAll exPair Dir.left).1 1).to_remove = true ∧
      (∃ q, inBounds q ∧
        (tget (moveAll exPair Dir.left).1 1).target_x = q.2 * RECT_WIDTH ∧
        (tget (moveAll exPair Dir.left).1 1).target_y = q.1 * RECT_HEIGHT ∧
        nextPos Dir.left q ≠ q ∧
        ∃ j, j < exPair.length ∧
          (tget (moveAll exPair Dir.left).1 j).to_remove = false ∧
          (tget (moveAll exPair Dir.left).1 j).merged = true ∧
          (tget (moveAll exPair Dir.left).1 j).target_x =
            (nextPos Dir.left q).2 * RECT_WIDTH ∧
          (tget (moveAll exPair Dir.left).1 j).target_y =
            (nextPos Dir.left q).1 * RECT_HEIGHT ∧
          (tget (moveAll exPair Dir.left).1 j).value =
            2 * (tget exPair 1).value) :=
  ⟨by decide, by decide, by decide,
    (c10_removed_target_short exPair Dir.left (by decide)).1 1 (by decide) (by decide)⟩

/-! ## C4: no two surviving tiles share a cell -/

/-- C4: after `move`, no two tiles of the live collection target the same
logical cell — their target pixel positions are pairwise distinct. -/
theorem c4_no_shared_cell (tiles : List Tile) (d : Dir) (h : WF tiles) :
    List.Pairwise (fun a b => (a.target_x, a.target_y) ≠ (b.target_x, b.target_y))
      (move tiles d).1 := by
  have INV := inv_runMove (d := d) h
  have hpw : List.Pairwise (fun a b => a.to_remove = false → b.to_remove = false →
      (a.target_x, a.target_y) ≠ (b.target_x, b.target_y))
      (runMove tiles d).tiles := by
    rw [List.pairwise_iff_get]
    intro a b hab
    have habv : a.1 < b.1 := hab
    have hga : (runMove tiles d).tiles.get a = tget (runMove tiles d).tiles a.1 := by
      rw [tget_eq_getElem a.2, List.get_eq_getElem]
    have hgb : (runMove tiles d).tiles.get b = tget (runMove tiles d).tiles b.1 := by
      rw [tget_eq_getElem b.2, List.get_eq_getElem]
    rw [hga, hgb]
    intro hra hrb hcontra
    have hlen : (runMove tiles d).tiles.length = (reset_merged_flags tiles).length :=
      INV.shape.len
    have hal : a.1 < (reset_merged_flags tiles).length := by
      have := a.2; omega
    have hbl : b.1 < (reset_merged_flags tiles).length := by
      have := b.2; omega
    obtain ⟨pa, hpa⟩ := INV.gok.onGrid a.1 hal hra
    obtain ⟨pb, hpb⟩ := INV.gok.onGrid b.1 hbl hrb
    have hsa := runMove_settled h hpa
    have hsb := runMove_settled h hpb
    have hne : pa ≠ pb := by
      intro he
      rw [he, hpb] at hpa
      have : b.1 = a.1 := Option.some.inj hpa
      omega
    have hx := congrArg Prod.fst hcontra
    have hy := congrArg Prod.snd hcontra
    simp only at hx hy
    apply hne
    apply pixel_inj
    · rw [← hsa.1, ← hsb.1]
      exact hx
    · rw [← hsa.2.1, ← hsb.2.1]
      exact hy
  have hsub : List.Pairwise (fun a b => a.to_remove = false → b.to_remove = false →
      (a.target_x, a.target_y) ≠ (b.target_x, b.target_y)) (move tiles d).1 :=
    hpw.sublist (List.filter_sublist _)
  refine hsub.imp_of_mem (fun ha hb hr => ?_)
  have ha' := (List.mem_filter.mp ha).2
  have hb' := (List.mem_filter.mp hb).2
  rw [decide_eq_true_eq] at ha' hb'
  exact hr ha' hb'

/-- C4 witness: the theorem applied to a concrete merging row. -/
theorem c4_witness :
    WF exPair ∧
      List.Pairwise (fun a b => (a.target_x, a.target_y) ≠ (b.target_x, b.target_y))
        (move exPair Dir.left).1 :=
  ⟨by decide, c4_no_shared_cell exPair Dir.left (by decide)⟩

/-! ## C5: value conservation -/

theorem sum_filter_eq_liveSum (l : List Tile) :
    ((l.filter (fun t => t.to_remove = false)).map Tile.value).sum = liveSum l := by
  induction l with
  | nil => rfl
  | cons t ts ih =>
    by_cases hr : t.to_remove = false
    · rw [List.filter_cons_of_pos (by simpa using hr)]
      simp only [List.map_cons, List.sum_cons, liveSum, wval]
      rw [hr]
      simp only [Bool.false_eq_true, if_false]
      rw [show ((ts.filter (fun t => t.to_remove = false)).map Tile.value).sum
          = liveSum ts from ih]
      rfl
    · rw [List.filter_cons_of_neg (by simpa using hr)]
      have hrt : t.to_remove = true := by
        cases hx : t.to_remove
        · exact absurd hx hr
        · rfl
      simp only [liveSum, List.map_cons, List.sum_cons, wval, hrt, if_true]
      rw [show ((ts.filter (fun t => t.to_remove = false)).map Tile.value).sum
          = liveSum ts from ih]
      simp [liveSum]

theorem liveSum_reset (tiles : List Tile) :
    liveSum (reset_merged_flags tiles) = (tiles.map Tile.value).sum := by
  induction tiles with
  | nil => rfl
  | cons t ts ih =>
    simp only [reset_merged_flags, liveSum, List.map_cons, List.sum_cons, wval] at *
    rw [ih]
    simp

/-- C5: `move` conserves total tile value: two merging tiles of equal
value V are replaced by one tile of value 2V, so the sum of the values of
the live collection after the call equals the sum before it. -/
theorem c5_value_conserved (tiles : List Tile) (d : Dir) (h : WF tiles) :
    ((move tiles d).1.map Tile.value).sum = (tiles.map Tile.value).sum := by
  have INV := inv_runMove (d := d) h
  have h1 : (move tiles d).1 =
      (runMove tiles d).tiles.filter (fun t => t.to_remove = false) := rfl
  rw [h1, sum_filter_eq_liveSum, INV.sum, liveSum_reset]

/-- C5 witness: the theorem applied to a concrete merging row. -/
theorem c5_witness :
    WF exPair ∧
      ((move exPair Dir.left).1.map Tile.value).sum = (exPair.map Tile.value).sum :=
  ⟨by decide, c5_value_conserved exPair Dir.left (by decide)⟩

/-! ## C2: `moved` is false exactly when the grid is unchanged -/

theorem runMove_false_record {tiles : List Tile} {d : Dir} (h : WF tiles)
    (hmf : (runMove tiles d).moved = false) {m : Nat} (hm : m < tiles.length) :
    tget (runMove tiles d).tiles m =
      setTarget { tget tiles m with merged := false, to_remove := false } := by
  have INV := inv_runMove (d := d) h
  have hb := baseWF_of_WF h
  have hm' : m < (reset_merged_flags tiles).length := by
    rw [reset_length]; exact hm
  obtain ⟨-, hsplit⟩ := INV.movedF hmf
  have hrk := rank_nonneg_of_inBounds (d := d) (hb.inb m hm')
  have hx := (hsplit m hm').1 (by push_cast; omega)
  rw [hx, tget_reset hm]

theorem move_false_out {tiles : List Tile} {d : Dir} (h : WF tiles)
    (hmf : (runMove tiles d).moved = false) :
    (move tiles d).1 = (runMove tiles d).tiles := by
  show (runMove tiles d).tiles.filter _ = _
  rw [List.filter_eq_self]
  intro t ht
  obtain ⟨m, hm, hge⟩ := List.mem_iff_getElem.mp ht
  have hmn : m < tiles.length := by
    have := runMove_len (d := d) h
    omega
  have htg : t = tget (runMove tiles d).tiles m := by
    rw [tget_eq_getElem hm, hge]
  rw [htg, runMove_false_record h hmf hmn]
  rfl

theorem find?_value_congr : ∀ (l₁ l₂ : List Tile) (p₁ p₂ : Tile → Bool),
    l₁.length = l₂.length →
    (∀ m, m < l₁.length → p₁ (tget l₁ m) = p₂ (tget l₂ m) ∧
      (tget l₁ m).value = (tget l₂ m).value) →
    (l₁.find? p₁).map Tile.value = (l₂.find? p₂).map Tile.value := by
  intro l₁
  induction l₁ with
  | nil =>
    intro l₂ p₁ p₂ hlen _
    cases l₂ with
    | nil => rfl
    | cons b bs => simp at hlen
  | cons a as ih =>
    intro l₂ p₁ p₂ hlen hrel
    cases l₂ with
    | nil => simp at hlen
    | cons b bs =>
      have h0 := hrel 0 (by simp)
      simp only [tget, List.getD_cons_zero] at h0
      cases hpa : p₁ a
      · have hpb : p₂ b = false := by rw [← h0.1, hpa]
        rw [List.find?_cons_of_neg _ (by simp [hpa]),
          List.find?_cons_of_neg _ (by simp [hpb])]
        apply ih bs p₁ p₂ (by simpa using hlen)
        intro m hm
        have := hrel (m + 1) (by simpa using Nat.succ_lt_succ hm)
        simpa [tget] using this
      · have hpb : p₂ b = true := by rw [← h0.1, hpa]
        rw [List.find?_cons_of_pos _ hpa, List.find?_cons_of_pos _ hpb]
        simp [h0.2]

theorem beq_pred_congr {t : Tile} {p : Cell} :
    ((((setTarget { t with merged := false, to_remove := false }).target_x,
       (setTarget { t with merged := false, to_remove := false }).target_y) ==
      (p.2 * RECT_WIDTH, p.1 * RECT_HEIGHT)) : Bool) = (t.cell == p) := by
  have h1 : ((setTarget { t with merged := false, to_remove := false }).target_x,
      (setTarget { t with merged := false, to_remove := false }).target_y) =
      (t.col * RECT_WIDTH, t.row * RECT_HEIGHT) := rfl
  rw [h1]
  cases hb : ((t.cell == p) : Bool)
  · rw [beq_eq_false_iff_ne] at hb
    rw [beq_eq_false_iff_ne]
    intro hc
    apply hb
    have := pixel_inj (p := (t.row, t.col)) (q := p)
      (congrArg Prod.fst hc) (congrArg Prod.snd hc)
    rw [Tile.cell, this]
  · rw [beq_iff_eq] at hb
    rw [beq_iff_eq]
    rw [Tile.cell] at hb
    rw [← hb]

theorem move_false_maps_eq {tiles : List Tile} {d : Dir} (h : WF tiles)
    (hmf : (runMove tiles d).moved = false) :
    gridValOut (move tiles d).1 = gridValIn tiles := by
  funext p
  rw [move_false_out h hmf]
  show ((runMove tiles d).tiles.find? _).map Tile.value =
    (tiles.find? _).map Tile.value
  apply find?_value_congr _ _ _ _ (runMove_len (d := d) h)
  intro m hm
  have hmn : m < tiles.length := by
    have := runMove_len (d := d) h
    omega
  rw [runMove_false_record h hmf hmn]
  exact ⟨beq_pred_congr, rfl⟩

theorem gridValIn_ne_none {tiles : List Tile} {p : Cell} :
    gridValIn tiles p ≠ none ↔ ∃ t ∈ tiles, t.cell = p := by
  simp only [gridValIn, ne_eq, Option.map_eq_none', List.find?_eq_none,
    beq_iff_eq, not_forall]
  constructor
  · rintro ⟨t, ht, hc⟩
    exact ⟨t, ht, not_not.mp hc⟩
  · rintro ⟨t, ht, hc⟩
    exact ⟨t, ht, not_not.mpr hc⟩

theorem gridValOut_ne_none {l : List Tile} {p : Cell} :
    gridValOut l p ≠ none ↔
      ∃ t ∈ l, (t.target_x, t.target_y) = (p.2 * RECT_WIDTH, p.1 * RECT_HEIGHT) := by
  simp only [gridValOut, ne_eq, Option.map_eq_none', List.find?_eq_none,
    beq_iff_eq, not_forall]
  constructor
  · rintro ⟨t, ht, hc⟩
    exact ⟨t, ht, not_not.mp hc⟩
  · rintro ⟨t, ht, hc⟩
    exact ⟨t, ht, not_not.mpr hc⟩

/-- If the post-move value map coincides with the pre-move one, the live
collection cannot have shrunk: every one of the n distinct occupied input
cells is matched by a distinct output tile. -/
theorem out_length_ge {tiles : List Tile} {d : Dir} (h : WF tiles)
    (heq : gridValOut (move tiles d).1 = gridValIn tiles) :
    tiles.length ≤ (move tiles d).1.length := by
  classical
  set out := (move tiles d).1 with hout
  set A := (tiles.map Tile.cell).toFinset with hA
  have hcard : A.card = tiles.length := by
    rw [hA, List.toFinset_card_of_nodup h.2, List.length_map]
  set f : Cell → Tile := fun p => (out.find? (fun t =>
    (t.target_x, t.target_y) == (p.2 * RECT_WIDTH, p.1 * RECT_HEIGHT))).getD
      default with hf
  have hfind : ∀ p ∈ A, ∃ u, out.find? (fun t =>
      (t.target_x, t.target_y) == (p.2 * RECT_WIDTH, p.1 * RECT_HEIGHT)) = some u := by
    intro p hp
    rw [hA, List.mem_toFinset] at hp
    obtain ⟨t, ht, hc⟩ := List.mem_map.mp hp
    have hne : gridValIn tiles p ≠ none := gridValIn_ne_none.mpr ⟨t, ht, hc⟩
    rw [← heq] at hne
    simp only [gridValOut, ne_eq, Option.map_eq_none'] at hne
    exact Option.ne_none_iff_exists'.mp hne
  have hmem : ∀ p ∈ A, f p ∈ out.toFinset := by
    intro p hp
    obtain ⟨u, hu⟩ := hfind p hp
    rw [List.mem_toFinset, hf]
    simp only [hu, Option.getD_some]
    exact List.mem_of_find?_eq_some hu
  have hpix : ∀ p ∈ A, ((f p).target_x, (f p).target_y) =
      (p.2 * RECT_WIDTH, p.1 * RECT_HEIGHT) := by
    intro p hp
    obtain ⟨u, hu⟩ := hfind p hp
    have := List.find?_some hu
    rw [beq_iff_eq] at this
    rw [hf]
    simp only [hu, Option.getD_some]
    exact this
  have hinj : ∀ p ∈ A, ∀ q ∈ A, f p = f q → p = q := by
    intro p hp q hq hfe
    have h1 := hpix p hp
    have h2 := hpix q hq
    rw [hfe] at h1
    have h3 : (p.2 * RECT_WIDTH, p.1 * RECT_HEIGHT) =
        (q.2 * RECT_WIDTH, q.1 * RECT_HEIGHT) := by
      rw [← h1, h2]
    rw [Prod.mk.injEq] at h3
    exact pixel_inj h3.1 h3.2
  calc tiles.length = A.card := hcard.symm
    _ ≤ out.toFinset.card := Finset.card_le_card_of_injOn f hmem hinj
    _ ≤ out.length := out.toFinset_card_le

/-- If `move` reports a change, the post-move value map differs from the
pre-move one: a merge shrinks the number of occupied cells, and a pure
slide strictly decreases the total traversal rank of the occupied cells
while equal maps would force equal occupied-cell sets and hence equal
rank totals. -/
theorem moved_true_maps_ne {tiles : List Tile} {d : Dir} (h : WF tiles)
    (hmv : (runMove tiles d).moved = true) :
    gridValOut (move tiles d).1 ≠ gridValIn tiles := by
  classical
  intro heq
  have INV := inv_runMove (d := d) h
  have hb := baseWF_of_WF h
  have hlen := runMove_len (d := d) h
  have hge := out_length_ge h heq
  have hnorem : ∀ m, m < tiles.length →
      (tget (runMove tiles d).tiles m).to_remove = false := by
    by_contra hc
    push_neg at hc
    obtain ⟨m, hm, hrm⟩ := hc
    rw [ne_eq, Bool.not_eq_false] at hrm
    have hflt : (move tiles d).1.length < (runMove tiles d).tiles.length := by
      have hne : (move tiles d).1.length ≠ (runMove tiles d).tiles.length := by
        intro he
        have hall := List.filter_length_eq_length.mp he
        have := hall (tget (runMove tiles d).tiles m)
          (by rw [show (moveAll tiles d).1 = (runMove tiles d).tiles from rfl]
              exact tget_mem (by omega))
        rw [decide_eq_true_eq, hrm] at this
        cases this
      have hle : (move tiles d).1.length ≤ (runMove tiles d).tiles.length :=
        List.length_filter_le _ _
      omega
    omega
  have hout : (move tiles d).1 = (runMove tiles d).tiles := by
    show (runMove tiles d).tiles.filter _ = _
    rw [List.filter_eq_self]
    intro t ht
    obtain ⟨m, hm, hge'⟩ := List.mem_iff_getElem.mp ht
    have hmn : m < tiles.length := by omega
    rw [← hge', ← tget_eq_getElem hm, decide_eq_true_eq]
    exact hnorem m hmn
  have hex : ∀ m : Nat, ∃ p : Cell, m < tiles.length →
      (runMove tiles d).grid p = some m := by
    intro m
    by_cases hm : m < tiles.length
    · obtain ⟨p, hp⟩ := INV.gok.onGrid m (by rw [reset_length]; exact hm)
        (hnorem m hm)
      exact ⟨p, fun _ => hp⟩
    · exact ⟨(0, 0), fun hc => absurd hc hm⟩
  choose f hf using hex
  rcases INV.movedT hmv with ⟨m, hm, hrm⟩ | ⟨q0, i0, hq0, hi0, hq0ne, -⟩
  · rw [reset_length] at hm
    rw [hnorem m hm] at hrm
    cases hrm
  · have hi0' : i0 < tiles.length := by rw [reset_length] at hi0; exact hi0
    have hrankle : ∀ m, m < tiles.length →
        rank d (f m) ≤ rank d (tget tiles m).cell := fun m hm =>
      (runMove_settled h (hf m hm)).2.2
    have hfq0 : f i0 = q0 := INV.gok.inj _ _ _ (hf i0 hi0') hq0
    have hcell0 : (tget (reset_merged_flags tiles) i0).cell =
        (tget tiles i0).cell := by
      rw [tget_reset hi0']; rfl
    have hstrict : rank d (f i0) < rank d (tget tiles i0).cell := by
      rcases lt_or_eq_of_le (hrankle i0 hi0') with hlt | heqr
      · exact hlt
      · exfalso
        apply hq0ne
        rw [← hfq0, hcell0]
        have hfin : inBounds (f i0) := (INV.gok.wf _ _ (hf i0 hi0')).2
        have hpin : inBounds (tget tiles i0).cell := h.1 _ (tget_mem hi0')
        exact rank_injOn hfin hpin heqr
    set A := (tiles.map Tile.cell).toFinset with hA
    have hAchar : ∀ p, p ∈ A ↔
        ∃ m, m < tiles.length ∧ (tget tiles m).cell = p := by
      intro p
      rw [hA, List.mem_toFinset]
      constructor
      · intro hp
        obtain ⟨t, ht, hc⟩ := List.mem_map.mp hp
        obtain ⟨m, hm, hge'⟩ := List.mem_iff_getElem.mp ht
        exact ⟨m, hm, by rw [tget_eq_getElem hm, hge', hc]⟩
      · rintro ⟨m, hm, hc⟩
        exact List.mem_map.mpr ⟨tget tiles m, tget_mem hm, hc⟩
    have hBchar : ∀ p, (∃ m, m < tiles.length ∧ f m = p) ↔ p ∈ A := by
      intro p
      constructor
      · rintro ⟨m, hm, rfl⟩
        have hset := runMove_settled h (hf m hm)
        have hne : gridValOut (move tiles d).1 (f m) ≠ none := by
          rw [gridValOut_ne_none]
          refine ⟨tget (runMove tiles d).tiles m, ?_, ?_⟩
          · rw [hout]
            exact tget_mem (by omega)
          · rw [hset.1, hset.2.1]
        rw [heq, gridValIn_ne_none] at hne
        obtain ⟨t, ht, hc⟩ := hne
        rw [hA, List.mem_toFinset]
        exact List.mem_map.mpr ⟨t, ht, hc⟩
      · intro hp
        have hne : gridValIn tiles p ≠ none := by
          rw [gridValIn_ne_none]
          obtain ⟨m, hm, hc⟩ := (hAchar p).mp hp
          exact ⟨tget tiles m, tget_mem hm, hc⟩
        rw [← heq, gridValOut_ne_none] at hne
        obtain ⟨t, ht, hc⟩ := hne
        rw [hout] at ht
        obtain ⟨m, hm, hge'⟩ := List.mem_iff_getElem.mp ht
        have hmn : m < tiles.length := by omega
        have hset := runMove_settled h (hf m hmn)
        have htg : t = tget (runMove tiles d).tiles m := by
          rw [tget_eq_getElem hm, hge']
        rw [htg, hset.1, hset.2.1] at hc
        rw [Prod.mk.injEq] at hc
        exact ⟨m, hmn, pixel_inj hc.1 hc.2⟩
    have hinjf : ∀ x ∈ Finset.range tiles.length, ∀ y ∈ Finset.range tiles.length,
        f x = f y → x = y := by
      intro x hx y hy hxy
      rw [Finset.mem_range] at hx hy
      have h1 := hf x hx
      have h2 := hf y hy
      rw [hxy] at h1
      exact Option.some.inj (h1.symm.trans h2)
    have hinjc : ∀ x ∈ Finset.range tiles.length, ∀ y ∈ Finset.range tiles.length,
        (tget tiles x).cell = (tget tiles y).cell → x = y := by
      intro x hx y hy hxy
      rw [Finset.mem_range] at hx hy
      exact cells_injective h.2 hx hy hxy
    have hBimg : Finset.image f (Finset.range tiles.length) = A := by
      apply Finset.ext
      intro p
      rw [Finset.mem_image]
      rw [← hBchar p]
      constructor
      · rintro ⟨m, hm, hc⟩
        rw [Finset.mem_range] at hm
        exact ⟨m, hm, hc⟩
      · rintro ⟨m, hm, hc⟩
        exact ⟨m, Finset.mem_range.mpr hm, hc⟩
    have hAimg : Finset.image (fun m => (tget tiles m).cell)
        (Finset.range tiles.length) = A := by
      apply Finset.ext
      intro p
      rw [Finset.mem_image, hAchar p]
      constructor
      · rintro ⟨m, hm, hc⟩
        rw [Finset.mem_range] at hm
        exact ⟨m, hm, hc⟩
      · rintro ⟨m, hm, hc⟩
        exact ⟨m, Finset.mem_range.mpr hm, hc⟩
    have hs1 : (Finset.range tiles.length).sum (fun m => rank d (f m)) =
        A.sum (fun p => rank d p) := by
      rw [← hBimg, Finset.sum_image hinjf]
    have hs2 : (Finset.range tiles.length).sum
        (fun m => rank d (tget tiles m).cell) = A.sum (fun p => rank d p) := by
      rw [← hAimg, Finset.sum_image hinjc]
    have hlt : (Finset.range tiles.length).sum (fun m => rank d (f m)) <
        (Finset.range tiles.length).sum (fun m => rank d (tget tiles m).cell) := by
      apply Finset.sum_lt_sum
      · intro m hm
        exact hrankle m (Finset.mem_range.mp hm)
      · exact ⟨i0, Finset.mem_range.mpr hi0', hstrict⟩
    rw [hs1, hs2] at hlt
    exact lt_irrefl _ hlt

/-- C2: `move` returns false iff the resulting grid — the map from cells to
values read off the target positions — is identical to the pre-move grid;
and whenever it returns false, every surviving tile's target equals the
pixel position of its current logical cell. -/
theorem c2_false_iff_unchanged (tiles : List Tile) (d : Dir) (h : WF tiles) :
    ((move tiles d).2 = false ↔ gridValOut (move tiles d).1 = gridValIn tiles) ∧
    ((move tiles d).2 = false → ∀ t ∈ (move tiles d).1,
      t.target_x = t.col * RECT_WIDTH ∧ t.target_y = t.row * RECT_HEIGHT) := by
  have hm2 : (move tiles d).2 = (runMove tiles d).moved := rfl
  constructor
  · constructor
    · intro hf
      rw [hm2] at hf
      exact move_false_maps_eq h hf
    · intro heq
      cases hmvc : (runMove tiles d).moved
      · rw [hm2, hmvc]
      · exact absurd heq (moved_true_maps_ne h hmvc)
  · intro hf t ht
    rw [hm2] at hf
    rw [move_false_out h hf] at ht
    obtain ⟨m, hm, hge⟩ := List.mem_iff_getElem.mp ht
    have hmn : m < tiles.length := by
      have := runMove_len (d := d) h
      omega
    have htg : t = tget (runMove tiles d).tiles m := by
      rw [tget_eq_getElem hm, hge]
    rw [htg, runMove_false_record h hf hmn]
    exact ⟨rfl, rfl⟩

/-- C2 witness: the theorem applied to a blocked row (no slide possible)
and a sliding row. -/
theorem c2_witness :
    WF exPair ∧
      (((move exPair Dir.left).2 = false ↔
        gridValOut (move exPair Dir.left).1 = gridValIn exPair) ∧
      ((move exPair Dir.left).2 = false → ∀ t ∈ (move exPair Dir.left).1,
        t.target_x = t.col * RECT_WIDTH ∧ t.target_y = t.row * RECT_HEIGHT)) :=
  ⟨by decide, c2_false_iff_unchanged exPair Dir.left (by decide)⟩

end G2048
